import Mathlib

/-!
Verification of the cryptonita library against its specification.

Byte strings are modelled as `List Nat` (each element a byte value),
weights of fuzzy sets as `ℚ`, and fallible Python code as `Except String`.
Each definition is a direct translation of the corresponding Python
function from the cryptonita sources.
-/

deriving instance DecidableEq for Except

namespace Cryptonita

/-! ## Byte sequences: cryptonita/mixins.py and cryptonita/helpers.py -/

/-- Error message of `helpers.are_same_length_or_fail`. -/
def mismatchMsg (la lb : Nat) : String :=
  "Mismatch lengths. Left string has " ++ toString la ++
    " bytes but right string has " ++ toString lb ++ "."

/-- The right operand of `SequenceMixin.__xor__`: either a finite byte
string or a `KeystreamView` (`InfiniteStream`) over a finite base. -/
inductive ByteOperand
  | fin (l : List Nat)
  | inf (base : List Nat)
deriving DecidableEq

/-- The first `m` bytes produced by iterating an `InfiniteStream`:
`itertools.cycle(base)`.  Cycling an empty base yields nothing. -/
def cycleTake (base : List Nat) (m : Nat) : List Nat :=
  if base.isEmpty then [] else (List.range m).map (fun i => base.getD (i % base.length) 0)

/-- `SequenceMixin.__xor__`: requires equal lengths unless the right
operand is an `InfiniteStream`; `zip` truncates to the shorter stream. -/
def seqXor (self : List Nat) (other : ByteOperand) : Except String (List Nat) :=
  match other with
  | .fin l =>
      if self.length = l.length then Except.ok (List.zipWith (· ^^^ ·) self l)
      else Except.error (mismatchMsg self.length l.length)
  | .inf base => Except.ok (List.zipWith (· ^^^ ·) self (cycleTake base self.length))

/-- Python slice `s[-n:]` for `n ≥ 0` (note `s[-0:]` is the whole list). -/
def pySliceLast (s : List Nat) (n : Nat) : List Nat :=
  if n = 0 then s else s.drop (s.length - n)

/-- Python slice `s[:-n]` for `n ≥ 0` (note `s[:-0]` is the empty list). -/
def pySliceDropLast (s : List Nat) (n : Nat) : List Nat :=
  if n = 0 then [] else s.take (s.length - n)

def schemePkcs7 : String := "pkcs#7"

def schemeZeros : String := "zeros"

/-- `SequenceMixin.pad`: append `n - len(s) % n` bytes, each of value
`npad` (pkcs#7) or `0` (zeros).  The Python `assert n > 0` is modelled
as an error result. -/
def pad (s : List Nat) (n : Nat) (scheme : String) : Except String (List Nat) :=
  if scheme = schemePkcs7 then
    if n = 0 then Except.error ("AssertionError")
    else
      let npad := n - s.length % n
      Except.ok (s ++ List.replicate npad npad)
  else if scheme = schemeZeros then
    if n = 0 then Except.error ("AssertionError")
    else
      let npad := n - s.length % n
      Except.ok (s ++ List.replicate npad 0)
  else Except.error ("Unknow padding scheme")

/-- `SequenceMixin.unpad`: only the pkcs#7 scheme is implemented.  It
reads the last byte `n` (IndexError on an empty string), rejects `n > 64`
or a trailing slice `s[-n:]` different from `n` bytes of value `n`, and
returns `s[:-n]`. -/
def unpad (s : List Nat) (scheme : String) : Except String (List Nat) :=
  if scheme = schemePkcs7 then
    match s.getLast? with
    | none => Except.error ("IndexError")
    | some n =>
      if 64 < n ∨ pySliceLast s n ≠ List.replicate n n then
        Except.error ("Bad padding")
      else Except.ok (pySliceDropLast s n)
  else Except.error ("Unknow padding scheme")

/-! ## Weighted candidate sets: cryptonita/fuzzy_set.py

A `FuzzySet` is a Python `dict` mapping candidates to weights, plus the
`min_membership` attribute.  The dict is modelled as an association list
in insertion order. -/

structure FuzzySet (α : Type) where
  entries : List (α × ℚ)
  min_membership : ℚ
deriving DecidableEq

/-- Python `dict` read with default 0: `FuzzySet.__getitem__`. -/
def dictGet [DecidableEq α] (l : List (α × ℚ)) (k : α) : ℚ :=
  match l.find? (fun p => p.1 = k) with
  | some p => p.2
  | none => 0

/-- Raw Python `dict.__setitem__`: an existing key keeps its position and
gets the new value, a new key is appended at the end. -/
def dictSetRaw [DecidableEq α] (l : List (α × ℚ)) (k : α) (v : ℚ) : List (α × ℚ) :=
  if l.any (fun p => p.1 = k) then l.map (fun p => if p.1 = k then (k, v) else p)
  else l ++ [(k, v)]

/-- Raw Python `del d[k]` (a no-op here when the key is absent, matching
the guarded `if elem in self: del self[elem]`). -/
def dictRemove [DecidableEq α] (l : List (α × ℚ)) (k : α) : List (α × ℚ) :=
  l.filter (fun p => ¬ p.1 = k)

/-- Build a Python dict from an iterable of pairs: later occurrences of a
key overwrite the value but keep the first position. -/
def dictOfPairs [DecidableEq α] (l : List (α × ℚ)) : List (α × ℚ) :=
  l.foldl (fun acc p => dictSetRaw acc p.1 p.2) []

/-- `FuzzySet._check_probability` as a Boolean. -/
def checkProb (prob : ℚ) : Bool :=
  decide (0 ≤ prob) && decide (prob ≤ 1)

/-- `FuzzySet.__setitem__`: reject a weight outside [0,1]; a weight below
`min_membership` or equal to 0 removes the key; otherwise store it. -/
def setitem [DecidableEq α] (fs : FuzzySet α) (k : α) (prob : ℚ) :
    Except String (FuzzySet α) :=
  if ¬ (0 ≤ prob ∧ prob ≤ 1) then Except.error ("ValueError: membership out of range")
  else if prob < fs.min_membership ∨ prob = 0 then
    Except.ok ⟨dictRemove fs.entries k, fs.min_membership⟩
  else Except.ok ⟨dictSetRaw fs.entries k prob, fs.min_membership⟩

/-- `FuzzySet.__init__` from key/weight pairs (the dict and pair-iterable
branches): check `min_membership`, drop pairs with weight not exceeding
it, build the dict, then check every remaining weight. -/
def fsFromPairs [DecidableEq α] (pairs : List (α × ℚ)) (minm : ℚ) :
    Except String (FuzzySet α) :=
  if ¬ (0 ≤ minm ∧ minm ≤ 1) then Except.error ("ValueError: min_membership out of range")
  else
    let kept := pairs.filter (fun p => decide (minm < p.2))
    if kept.all (fun p => checkProb p.2) then Except.ok ⟨dictOfPairs kept, minm⟩
    else Except.error ("ValueError: membership out of range")

/-- Stable insertion into a list sorted by descending weight: the new
element goes after strictly heavier entries and before all others. -/
def insertDesc [DecidableEq α] (x : α × ℚ) : List (α × ℚ) → List (α × ℚ)
  | [] => [x]
  | y :: ys => if x.2 < y.2 then y :: insertDesc x ys else x :: y :: ys

/-- Stable sort by descending weight.  `heapq.nlargest(n, items,
key=itemgetter(1))` is specified as `sorted(items, key, reverse=True)[:n]`
with a stable sort; this insertion sort realises that contract. -/
def sortDesc [DecidableEq α] : List (α × ℚ) → List (α × ℚ)
  | [] => []
  | x :: xs => insertDesc x (sortDesc xs)

/-- `heapq.nlargest(n, items, key=itemgetter(1))`. -/
def nlargest [DecidableEq α] (n : Nat) (l : List (α × ℚ)) : List (α × ℚ) :=
  (sortDesc l).take n

/-- `FuzzySet.most_likely()` with `n` omitted: `nlargest(1, ...)[0][0]`;
an empty set raises IndexError. -/
def most_likely_none [DecidableEq α] (fs : FuzzySet α) : Except String α :=
  match nlargest 1 fs.entries with
  | [] => Except.error ("IndexError")
  | x :: _ => Except.ok x.1

/-- `FuzzySet.most_likely(n)`: the keys of `nlargest(n, ...)`; an empty
result raises IndexError via `tuple(zip(*[]))[0]`. -/
def most_likely_n [DecidableEq α] (fs : FuzzySet α) (n : Nat) : Except String (List α) :=
  let l := nlargest n fs.entries
  if l = [] then Except.error ("IndexError") else Except.ok (l.map Prod.fst)

/-- The earliest entry of maximal weight, written from the amended
specification words: ties between equal weights go to the earlier
(first-inserted) entry. -/
def firstMax : List (α × ℚ) → Option (α × ℚ)
  | [] => none
  | x :: xs =>
    match firstMax xs with
    | none => some x
    | some y => if x.2 < y.2 then some y else some x

/-- The stored-weight invariant the operations actually maintain: the
`min_membership` attribute lies in `[0, 1]` and every stored weight `w`
satisfies `min_membership ≤ w ≤ 1` and `w ≠ 0`.  (Construction filters
strictly, but `__setitem__` keeps a weight exactly equal to a non-zero
`min_membership`, so `≥` is the tightest preserved bound.) -/
def fuzzyInv [DecidableEq α] (fs : FuzzySet α) : Prop :=
  0 ≤ fs.min_membership ∧ fs.min_membership ≤ 1 ∧
    ∀ p ∈ fs.entries, fs.min_membership ≤ p.2 ∧ p.2 ≤ 1 ∧ p.2 ≠ 0

/-- `FuzzySet.cut_off` with an `int` argument: keep the `n` most likely
entries; the dict is rebuilt from the `nlargest` list, so the surviving
entries end up in descending-weight order. -/
def cut_off_int [DecidableEq α] (fs : FuzzySet α) (n : Nat) : FuzzySet α :=
  ⟨nlargest n fs.entries, fs.min_membership⟩

/-- `FuzzySet.cut_off` with a non-int argument: delete every key whose
weight is less than the threshold. -/
def cut_off_float [DecidableEq α] (fs : FuzzySet α) (q : ℚ) : FuzzySet α :=
  ⟨fs.entries.filter (fun p => ¬ p.2 < q), fs.min_membership⟩

/-- A Python number: `isinstance(n, int)` dispatch distinguishes `int`
from `float` values. -/
inductive PyNum
  | int (z : ℤ)
  | float (q : ℚ)
deriving DecidableEq

def PyNum.toQ : PyNum → ℚ
  | .int z => (z : ℚ)
  | .float q => q

/-- `FuzzySet.cut_off(n)` with its `isinstance(n, int)` dispatch.
(`heapq.nlargest` with a non-positive count returns the empty list,
matching `Int.toNat`.) -/
def cut_off [DecidableEq α] (fs : FuzzySet α) (n : PyNum) : FuzzySet α :=
  match n with
  | .int z => cut_off_int fs z.toNat
  | .float q => cut_off_float fs q

/-- `FuzzySet.scale`: `for k in self: self[k] *= n`, a sequence of
`__setitem__` calls reading the current value of each original key.
(CPython additionally raises RuntimeError if a `__setitem__` deletes a
key during the iteration; the model keeps executing the remaining
assignments, which does not affect the stored-weight invariant.) -/
def scale [DecidableEq α] (fs : FuzzySet α) (n : ℚ) : Except String (FuzzySet α) :=
  fs.entries.foldlM (fun acc p => setitem acc p.1 (dictGet acc.entries p.1 * n)) fs

/-- `FuzzySet.normalize`: divide by the sum of the weights when it is
positive. -/
def normalize [DecidableEq α] (fs : FuzzySet α) : Except String (FuzzySet α) :=
  let s := (fs.entries.map Prod.snd).sum
  if 0 < s then scale fs (1 / s) else Except.ok fs

/-- `FuzzySet.union`: copy the larger set through the constructor (with
the default `min_membership = 0.0`), then `tmp[k] = max(tmp[k], pr)` for
each entry of the smaller set. -/
def union [DecidableEq α] (a b : FuzzySet α) : Except String (FuzzySet α) :=
  -- max_set = other if len(other) > len(self) else self; min_set the other one
  (fsFromPairs (if b.entries.length > a.entries.length then b else a).entries 0).bind
    (fun tmp0 =>
      (if b.entries.length > a.entries.length then a else b).entries.foldlM
        (fun acc p => setitem acc p.1 (max (dictGet acc.entries p.1) p.2)) tmp0)

/-- `FuzzySet.intersection`: start from an empty set (default
`min_membership = 0.0`) and do `tmp[k] = min(max_set[k], pr)` over the
smaller set; a key absent from the larger set reads as weight 0 and is
therefore dropped by `__setitem__`. -/
def intersection [DecidableEq α] (a b : FuzzySet α) : Except String (FuzzySet α) :=
  -- min_set = other if len(other) < len(self) else self; max_set the other one
  (if b.entries.length < a.entries.length then b else a).entries.foldlM
    (fun acc p => setitem acc p.1 (min
      (dictGet (if b.entries.length < a.entries.length then a else b).entries p.1) p.2))
    (⟨[], 0⟩ : FuzzySet α)

/-! ### A heap model for the frame claims

Python objects live on a heap; `union`/`intersection` allocate a fresh
`tmp` object and write only to it, while `|=`/`&=` finally overwrite the
receiver.  The heap is a list of `FuzzySet` values indexed by position;
allocation appends. -/

/-- `FuzzySet.union` acting on a heap: read both operands (`max_set` is
the longer one), allocate the `tmp` object at the next free reference
`st.length`, run the `tmp[k] = max(tmp[k], pr)` loop as heap writes to
`tmp`, and return the heap and the reference of the result. -/
def unionStore [DecidableEq α] (st : List (FuzzySet α)) (selfR otherR : Nat) :
    Except String (List (FuzzySet α) × Nat) :=
  (fsFromPairs (if (st.getD otherR ⟨[], 0⟩).entries.length >
        (st.getD selfR ⟨[], 0⟩).entries.length
      then st.getD otherR ⟨[], 0⟩ else st.getD selfR ⟨[], 0⟩).entries 0).bind
    (fun tmp0 =>
      ((if (st.getD otherR ⟨[], 0⟩).entries.length >
            (st.getD selfR ⟨[], 0⟩).entries.length
          then st.getD selfR ⟨[], 0⟩ else st.getD otherR ⟨[], 0⟩).entries.foldlM
        (fun σ p =>
          (setitem (σ.getD st.length ⟨[], 0⟩) p.1
            (max (dictGet (σ.getD st.length ⟨[], 0⟩).entries p.1) p.2)).bind
          (fun t2 => Except.ok (σ.set st.length t2)))
        (st ++ [tmp0])).bind
      (fun st2 => Except.ok (st2, st.length)))

/-- `FuzzySet.intersection` acting on a heap: `min_set` is the shorter
operand; `tmp` starts empty. -/
def intersectionStore [DecidableEq α] (st : List (FuzzySet α)) (selfR otherR : Nat) :
    Except String (List (FuzzySet α) × Nat) :=
  ((if (st.getD otherR ⟨[], 0⟩).entries.length <
        (st.getD selfR ⟨[], 0⟩).entries.length
      then st.getD otherR ⟨[], 0⟩ else st.getD selfR ⟨[], 0⟩).entries.foldlM
    (fun σ p =>
      (setitem (σ.getD st.length ⟨[], 0⟩) p.1
        (min (dictGet (if (st.getD otherR (⟨[], 0⟩ : FuzzySet α)).entries.length <
              (st.getD selfR (⟨[], 0⟩ : FuzzySet α)).entries.length
            then st.getD selfR ⟨[], 0⟩ else st.getD otherR ⟨[], 0⟩).entries p.1) p.2)).bind
      (fun t2 => Except.ok (σ.set st.length t2)))
    (st ++ [(⟨[], 0⟩ : FuzzySet α)])).bind
    (fun st2 => Except.ok (st2, st.length))

/-- `FuzzySet.__ior__` = `self.update(other)`: compute the union into a
fresh `tmp`, then `self.clear(); dict.update(self, tmp)` — the receiver
keeps its own `min_membership` but takes over the entries of `tmp`. -/
def iorStore [DecidableEq α] (st : List (FuzzySet α)) (selfR otherR : Nat) :
    Except String (List (FuzzySet α) × Nat) :=
  (unionStore st selfR otherR).bind
    (fun p => Except.ok (p.1.set selfR
      ⟨(p.1.getD p.2 ⟨[], 0⟩).entries, (p.1.getD selfR (⟨[], 0⟩ : FuzzySet α)).min_membership⟩,
      selfR))

/-- `FuzzySet.__iand__`: same with the intersection. -/
def iandStore [DecidableEq α] (st : List (FuzzySet α)) (selfR otherR : Nat) :
    Except String (List (FuzzySet α) × Nat) :=
  (intersectionStore st selfR otherR).bind
    (fun p => Except.ok (p.1.set selfR
      ⟨(p.1.getD p.2 ⟨[], 0⟩).entries, (p.1.getD selfR (⟨[], 0⟩ : FuzzySet α)).min_membership⟩,
      selfR))

/-! ### join_fuzzy_sets -/

/-- `FuzzySet.copy()` = `FuzzySet(self, min_membership=self.min_membership)`. -/
def copyFS [DecidableEq α] (fs : FuzzySet α) : Except String (FuzzySet α) :=
  fsFromPairs fs.entries fs.min_membership

/-- `itertools.product`: all combinations, leftmost factor varying
slowest. -/
def cartProd : List (List β) → List (List β)
  | [] => [[]]
  | l :: ls => l.flatMap (fun x => (cartProd ls).map (fun c => x :: c))

/-- Python `j.join(byte_seq)`. -/
def joinWith (j : List Nat) (parts : List (List Nat)) : List Nat :=
  List.intercalate j parts

/-- The weight of one combination: the product of the fragment weights. -/
def prodWeights (combo : List (List Nat × ℚ)) : ℚ :=
  combo.foldl (fun acc p => acc * p.2) 1

/-- The `cut_off < 1` branch of `join_fuzzy_sets`: enumerate the full
cartesian product, weight each combination by the product of fragment
weights, keep those with weight ≥ cut_off, join the fragments, and build
a `FuzzySet` from the resulting dict (later duplicate keys overwrite). -/
def joinProdBranch (sets : List (FuzzySet (List Nat))) (cutOff : ℚ) (j : List Nat) :
    Except String (FuzzySet (List Nat)) :=
  let combos := cartProd (sets.map (fun fs => fs.entries))
  let weighted := combos.map (fun combo => (combo.map Prod.fst, prodWeights combo))
  let kept := (weighted.filter (fun p => ¬ p.2 < cutOff)).map
    (fun p => (joinWith j p.1, p.2))
  fsFromPairs (dictOfPairs kept) 0

/-- Strict lexicographic order on Python tuples `(pr, idx)`. -/
def lexLt (p q : ℚ × Nat) : Prop :=
  p.1 < q.1 ∨ (p.1 = q.1 ∧ p.2 < q.2)

instance (p q : ℚ × Nat) : Decidable (lexLt p q) := by
  unfold lexLt
  infer_instance

def insertAsc (x : ℚ × Nat) : List (ℚ × Nat) → List (ℚ × Nat)
  | [] => [x]
  | y :: ys => if lexLt y x then y :: insertAsc x ys else x :: y :: ys

/-- Python `sorted` on a list of `(pr, idx)` tuples (ascending). -/
def sortLexAsc : List (ℚ × Nat) → List (ℚ × Nat)
  | [] => []
  | x :: xs => insertAsc x (sortLexAsc xs)

/-- The sorted value list of `join_fuzzy_sets`: one `(pr, idx)` pair per
membership of each input set. -/
def valsOf (sets : List (FuzzySet (List Nat))) : List (ℚ × Nat) :=
  sortLexAsc ((sets.enum.map (fun p => p.2.entries.map (fun e => (e.2, p.1)))).flatten)

/-- `functools.reduce(mul, counters)`; the loop below only evaluates it
on non-empty counter lists, where the left fold from 1 agrees with
`reduce` without an initial value. -/
def prodNat (l : List Nat) : Nat :=
  l.foldl (fun a b => a * b) 1

/-- The shrink loop of `join_fuzzy_sets` in cardinality mode: walk the
ascending value list; skip sets already down to one member; tentatively
discard one membership, and if the size product falls to ≤ cut_off, undo
that discard and stop. -/
def shrinkLoop (cutQ : ℚ) : List (ℚ × Nat) → List Nat → List Nat
  | [], counters => counters
  | (_, idx) :: rest, counters =>
    if counters.getD idx 0 = 1 then shrinkLoop cutQ rest counters
    else
      let c2 := counters.set idx (counters.getD idx 0 - 1)
      if (prodNat c2 : ℚ) ≤ cutQ then counters
      else shrinkLoop cutQ rest c2

/-- `join_fuzzy_sets(iterable, cut_off, j)`.  The `assert 0 <= cut_off`
is modelled as an error; in cardinality mode each input set is copied and
cut to its shrunk counter, the recursive call
`join_fuzzy_sets(sets, cut_off=0.0, j)` is the product branch, and the
original `cut_off` object is finally applied to the joined set. -/
def join_fuzzy_sets (sets : List (FuzzySet (List Nat))) (cutOff : PyNum) (j : List Nat) :
    Except String (FuzzySet (List Nat)) :=
  if cutOff.toQ < 0 then Except.error ("AssertionError")
  else if 1 ≤ cutOff.toQ then
    ((sets.zip (shrinkLoop cutOff.toQ (valsOf sets)
        (sets.map (fun fs => fs.entries.length)))).mapM
      (fun p => (copyFS p.1).bind (fun cp => Except.ok (cut_off_int cp p.2)))).bind
      (fun shrunk => (joinProdBranch shrunk 0 j).bind
        (fun upper => Except.ok (cut_off upper cutOff)))
  else joinProdBranch sets cutOff.toQ j

/-- Modelled from the claim wording, for comparison only: shrink
greedily until the product of the remaining sizes is ≤ cut_off (instead
of stopping just before that point). -/
def shrinkLoopClaim (cutQ : ℚ) : List (ℚ × Nat) → List Nat → List Nat
  | [], counters => counters
  | (_, idx) :: rest, counters =>
    if (prodNat counters : ℚ) ≤ cutQ then counters
    else if counters.getD idx 0 = 1 then shrinkLoopClaim cutQ rest counters
    else shrinkLoopClaim cutQ rest (counters.set idx (counters.getD idx 0 - 1))

/-- Modelled from the claim wording, for comparison only: the
cardinality-mode join as the claim describes it. -/
def join_fuzzy_sets_claim (sets : List (FuzzySet (List Nat))) (c : Nat) (j : List Nat) :
    Except String (FuzzySet (List Nat)) :=
  ((sets.zip (shrinkLoopClaim (c : ℚ) (valsOf sets)
      (sets.map (fun fs => fs.entries.length)))).mapM
    (fun p => (copyFS p.1).bind (fun cp => Except.ok (cut_off_int cp p.2)))).bind
    (fun shrunk => (joinProdBranch shrunk 0 j).bind
      (fun upper => Except.ok (cut_off_int upper c)))

/-! ## MT19937: cryptonita/attacks/prng.py

The 624-word state array `MT` is modelled as a single natural number
holding 624 base-2^32 digits, with `MT[i]` the `i`-th digit.  Reads and
writes are explicit div/mod digit operations, so every stored word is a
machine integer taken mod 2^32 and the kernel can evaluate the generator
on concrete seeds.  The deep seed/twist recurrences are written with the
evaluation-forcing identity `forceNat` in tail position (see below);
`forceNat x a = a` always, so the semantics is untouched. -/

def W32 : Nat := 0xffffffff

def B32 : Nat := 4294967296

/-- Identity on `a` that forces the evaluation of `x` first: both
branches are the same, so `forceNat x a = a` unconditionally (lemma
`forceNat_eq`).  Without it, 600-step state recurrences build unevaluated
term chains that overflow the type checker's stack. -/
def forceNat (x : Nat) (a : α) : α := if x = x then a else a

/-- Digit `i` of the packed state: `MT[i]`. -/
def readW (s i : Nat) : Nat := s / B32 ^ i % B32

/-- Replace digit `i` of the packed state: `MT[i] = v` (for `v < 2^32`). -/
def writeW (s i v : Nat) : Nat :=
  s % B32 ^ i + v * B32 ^ i + s / B32 ^ (i + 1) * B32 ^ (i + 1)

/-- The tempering transform of `extract_number` (before the final
`& W`). -/
def temper (y : Nat) : Nat :=
  let y1 := y ^^^ ((y >>> 11) &&& 0xffffffff)
  let y2 := y1 ^^^ ((y1 <<< 7) &&& 0x9d2c5680)
  let y3 := y2 ^^^ ((y2 <<< 15) &&& 0xefc60000)
  y3 ^^^ (y3 >>> 18)

/-- The `while i < 32: g = f(g); i += b` loop of the inversion helpers.
The Python functions assert `0 < b < 32`; with `b ≥ 1` the loop runs at
most 32 times, so a fuel of 32 reproduces it exactly. -/
def invShiftLoop (f : Nat → Nat) (b : Nat) : Nat → Nat → Nat → Nat
  | 0, _, g => g
  | fuel + 1, i, g => if i < 32 then invShiftLoop f b fuel (i + b) (f g) else g

/-- `inv_right_shift(v, b, m)`: iterate `g = v ^ ((g >> b) & m)`. -/
def inv_right_shift (v b m : Nat) : Nat :=
  invShiftLoop (fun g => v ^^^ ((g >>> b) &&& m)) b 32 0 0

/-- `inv_left_shift(v, b, m)`: iterate `g = v ^ ((g << b) & m)`. -/
def inv_left_shift (v b m : Nat) : Nat :=
  invShiftLoop (fun g => v ^^^ ((g <<< b) &&& m)) b 32 0 0

/-- The four inverse tempering steps of `clone_mt19937`, in order. -/
def untemper (y : Nat) : Nat :=
  inv_right_shift
    (inv_left_shift
      (inv_left_shift (inv_right_shift y 18 0xffffffff) 15 0xefc60000)
      7 0x9d2c5680)
    11 0xffffffff

/-- The seeding loop `MT[i] = (f * (MT[i-1] ^ (MT[i-1] >> 30)) + i) & W`
for `i = 1..623`, appending digit `i` each step. -/
def seedLoop : Nat → Nat → Nat → Nat → Nat
  | MT, _, _, 0 => MT
  | MT, prev, i, k + 1 =>
    let nxt := (1812433253 * (prev ^^^ (prev >>> 30)) + i) &&& W32
    let MT2 := MT + nxt * B32 ^ i
    forceNat MT2 (seedLoop MT2 nxt (i + 1) k)

/-- `MT19937.__init__` state array.  Python stores the raw seed in
`MT[0]`; only its low 32 bits are ever read back before the first twist
overwrites it (bit 31, via `& upper_mask`), while the seeding recurrence
uses the full value through the `prev` argument, so the packed digit
keeps `seed mod 2^32`. -/
def seedInit (seed : Nat) : Nat :=
  seedLoop (seed % B32) seed 1 623

def lowerMask : Nat := 0x7fffffff

def upperMask : Nat := 0x80000000

/-- One in-place assignment of `twist`: it reads already-updated words
for wrapped indices, exactly like the Python in-place loop. -/
def twistStep (MT i : Nat) : Nat :=
  let x := (readW MT i &&& upperMask) + (readW MT ((i + 1) % 624) &&& lowerMask)
  let xA := x >>> 1
  let xA2 := if x % 2 ≠ 0 then xA ^^^ 0x9908b0df else xA
  writeW MT i ((readW MT ((i + 397) % 624)) ^^^ xA2)

/-- The `for i in range(n)` loop of `twist()`. -/
def twistAux : Nat → Nat → Nat → Nat
  | MT, _, 0 => MT
  | MT, i, fuel + 1 =>
    let MT2 := twistStep MT i
    forceNat MT2 (twistAux MT2 (i + 1) fuel)

/-- `twist()`: update all 624 words in place, in order. -/
def twist (MT : Nat) : Nat := twistAux MT 0 624

structure MTState where
  MT : Nat
  index : Nat
deriving DecidableEq

/-- `MT19937(seed)`: seeded state with `index = n + 1`, which forces a
twist on the first extraction. -/
def mtInit (seed : Nat) : MTState :=
  ⟨seedInit seed, 625⟩

/-- One step of the `extract_number` generator: twist when the index has
run past the state array, then temper the current word. -/
def extractOne (s : MTState) : Nat × MTState :=
  let s2 := if 624 ≤ s.index then (⟨twist s.MT, 0⟩ : MTState) else s
  (temper (readW s2.MT s2.index) &&& W32, ⟨s2.MT, s2.index + 1⟩)

/-- Draw `k` outputs. -/
def extractN : MTState → Nat → List Nat × MTState
  | s, 0 => ([], s)
  | s, k + 1 =>
    let p := extractOne s
    forceNat p.1 ((fun rest => (p.1 :: rest.1, rest.2)) (extractN p.2 k))

/-- Pack a list of 32-bit words into the state number, word `0` first. -/
def packAux : List Nat → Nat → Nat → Nat
  | [], _, acc => acc
  | w :: ws, i, acc =>
    let acc2 := acc + w * B32 ^ i
    forceNat acc2 (packAux ws (i + 1) acc2)

def packWords (ws : List Nat) : Nat := packAux ws 0 0

/-- `clone_mt19937(out)`: require at least 624 outputs, untemper them
all, and reset a fresh generator with the first 624 recovered words and
`index = 624` (`reset_state` accepts exactly that index). -/
def clone_mt19937 (out : List Nat) : Except String MTState :=
  if out.length < 624 then
    Except.error ("You need at least 624 numbers to clone the MT19937 PRNG")
  else Except.ok ⟨packWords ((out.map untemper).take 624), 624⟩

/-! ## CBC padding-oracle attack: cryptonita/attacks/block_ciphers.py -/

/-- `nblocks(bs)` as a list of chunks (the last one may be short).  The
fuel is the list length; each step consumes at least one element when
`bs ≥ 1`. -/
def blocksOfAux (bs : Nat) : Nat → List Nat → List (List Nat)
  | 0, _ => []
  | fuel + 1, l => if l = [] then [] else l.take bs :: blocksOfAux bs fuel (l.drop bs)

def blocksOf (bs : Nat) (l : List Nat) : List (List Nat) :=
  blocksOfAux bs l.length l

def joinBlocks (bls : List (List Nat)) : List Nat :=
  bls.flatten

/-- Pointwise XOR (`zip` truncates to the shorter operand). -/
def lxor (a b : List Nat) : List Nat :=
  List.zipWith (· ^^^ ·) a b

/-- CBC encryption block chain: `C_i = E(P_i XOR C_(i-1))` with `C_(-1)`
the IV. -/
def cbcEncBlocks (E : List Nat → List Nat) (prev : List Nat) :
    List (List Nat) → List (List Nat)
  | [] => []
  | p :: ps =>
    let c := E (lxor p prev)
    c :: cbcEncBlocks E c ps

def cbcEnc (E : List Nat → List Nat) (iv : List Nat) (ptxt : List Nat) (bs : Nat) :
    List Nat :=
  joinBlocks (cbcEncBlocks E iv (blocksOf bs ptxt))

/-- CBC decryption of an IV-prefixed ciphertext: `P_i = D(C_i) XOR
C_(i-1)` for `i ≥ 1`; the first block is the IV and produces no output. -/
def cbcDecBlocks (D : List Nat → List Nat) (bls : List (List Nat)) : List (List Nat) :=
  List.zipWith (fun prev cur => lxor (D cur) prev) bls (bls.drop 1)

/-- The padding oracle of the claim: decrypt an IV-prefixed ciphertext
and report whether pkcs#7 unpadding succeeds. -/
def padOracle (D : List Nat → List Nat) (bs : Nat) (c : List Nat) : Bool :=
  match unpad (joinBlocks (cbcDecBlocks D (blocksOf bs c))) schemePkcs7 with
  | Except.ok _ => true
  | Except.error _ => false

/-- The forged second-to-last block at position `i`, candidate byte `n`:
`prev[:i] + n + (padn * (bs-i-1)) ^ x[i+1:]`. -/
def forgeBlock (prev x : List Nat) (bs i n : Nat) : List Nat :=
  prev.take i ++ n :: (x.drop (i + 1)).map (fun xj => (bs - i) ^^^ xj)

/-- The inner `for n in range(256)` loop: the first candidate different
from the original byte that the oracle accepts. -/
def tryByte (oracle : List Nat → Bool) (cblocks : List (List Nat)) (prev x : List Nat)
    (bs i : Nat) : Option Nat :=
  (List.range 256).find? (fun n =>
    decide (¬ n = prev.getD i 0) &&
      oracle (joinBlocks (cblocks.set (cblocks.length - 2) (forgeBlock prev x bs i n))))

/-- Process one position `i`: on success record `x[i] = padn ^ n`,
otherwise keep the initial placeholder. -/
def stepPos (oracle : List Nat → Bool) (cblocks : List (List Nat)) (prev : List Nat)
    (bs : Nat) (x : List Nat) (i : Nat) : List Nat :=
  match tryByte oracle cblocks prev x bs i with
  | some n => x.set i ((bs - i) ^^^ n)
  | none => x

/-- The `for i in range(bsize-1, -1, -1)` loop. -/
def posLoop (oracle : List Nat → Bool) (cblocks : List (List Nat)) (prev : List Nat)
    (bs : Nat) : Nat → List Nat → List Nat
  | 0, x => x
  | i + 1, x => posLoop oracle cblocks prev bs i (stepPos oracle cblocks prev bs x i)

/-- `decrypt_cbc_last_blk_padding_attack`: recover the plaintext of the
last block of `cblocks`.  `x` starts as `bytes(bsize..1) ^ prev` and is
finally XORed with `prev` again. -/
def decrypt_cbc_last_blk_padding_attack (cblocks : List (List Nat)) (bs : Nat)
    (oracle : List Nat → Bool) : List Nat :=
  let prev := cblocks.getD (cblocks.length - 2) []
  let x0 := lxor ((List.range bs).map (fun i => bs - i)) prev
  lxor (posLoop oracle cblocks prev bs bs x0) prev

/-- The `while len(cblocks) > 1` loop of `decrypt_cbc_padding_attack`,
with the block count as fuel. -/
def attackRounds (bs : Nat) (oracle : List Nat → Bool) :
    Nat → List (List Nat) → List (List Nat)
  | 0, _ => []
  | fuel + 1, cblocks =>
    if cblocks.length ≤ 1 then []
    else decrypt_cbc_last_blk_padding_attack cblocks bs oracle ::
      attackRounds bs oracle fuel cblocks.dropLast

/-- `decrypt_cbc_padding_attack(ciphertext, bsize, oracle, iv)`. -/
def decrypt_cbc_padding_attack (ciphertext : List Nat) (bs : Nat)
    (oracle : List Nat → Bool) (iv : Option (List Nat)) : List Nat :=
  let ct := match iv with
    | some v => v ++ ciphertext
    | none => ciphertext
  let cblocks := blocksOf bs ct
  joinBlocks (attackRounds bs oracle cblocks.length cblocks).reverse

end Cryptonita

namespace Cryptonita

/-! ## Theorems -/

/-- Helper: the last element of a non-trivial replicate. -/
theorem getLast?_replicate_of_ne (k v : Nat) (h : k ≠ 0) :
    (List.replicate k v).getLast? = some v := by
  cases k with
  | zero => exact absurd rfl h
  | succ m =>
    rw [List.replicate_succ']
    simp

/-- Helper: unpadding a sequence that ends in `k` bytes of value `k`,
for `1 ≤ k ≤ 64`, strips exactly those bytes. -/
theorem unpad_append_replicate (s : List Nat) (k : Nat) (hk1 : 1 ≤ k) (hk64 : k ≤ 64) :
    unpad (s ++ List.replicate k k) schemePkcs7 = Except.ok s := by
  have hlen : (s ++ List.replicate k k).length - k = s.length := by
    simp
  have hlast : (s ++ List.replicate k k).getLast? = some k := by
    rw [List.getLast?_append, getLast?_replicate_of_ne k k (by omega)]
    rfl
  have hdrop : pySliceLast (s ++ List.replicate k k) k = List.replicate k k := by
    unfold pySliceLast
    rw [if_neg (by omega), hlen]
    exact List.drop_left s _
  have htake : pySliceDropLast (s ++ List.replicate k k) k = s := by
    unfold pySliceDropLast
    rw [if_neg (by omega), hlen]
    exact List.take_left s _
  have hcond : ¬ (64 < k ∨
      pySliceLast (s ++ List.replicate k k) k ≠ List.replicate k k) := by
    rw [hdrop]
    push_neg
    exact ⟨by omega, rfl⟩
  unfold unpad
  rw [if_pos rfl, hlast]
  dsimp only
  rw [if_neg hcond, htake]

/-- Helper: the pkcs#7 pad/unpad round trip, for pad lengths at most 64. -/
theorem pkcs7_roundtrip (s : List Nat) (n : Nat) (hn : 0 < n) (h64 : n ≤ 64) :
    pad s n schemePkcs7 = Except.ok (s ++ List.replicate (n - s.length % n) (n - s.length % n)) ∧
    unpad (s ++ List.replicate (n - s.length % n) (n - s.length % n)) schemePkcs7 =
      Except.ok s := by
  have hmod : s.length % n < n := Nat.mod_lt _ hn
  constructor
  · unfold pad
    rw [if_pos rfl, if_neg (by omega)]
  · exact unpad_append_replicate s _ (by omega) (by omega)

/-- C3 (amended): for every byte sequence and block size `n` with
`0 < n ≤ 64`, unpadding the pkcs#7-padded sequence restores it; the
`zeros` scheme is not supported by `unpad` at all. -/
theorem pad_unpad_roundtrip (s : List Nat) (n : Nat) (hn : 0 < n) (h64 : n ≤ 64) :
    (∃ padded, pad s n schemePkcs7 = Except.ok padded ∧
       unpad padded schemePkcs7 = Except.ok s) ∧
    (∀ t : List Nat, unpad t schemeZeros = Except.error ("Unknow padding scheme")) := by
  refine ⟨⟨_, (pkcs7_roundtrip s n hn h64).1, (pkcs7_roundtrip s n hn h64).2⟩, ?_⟩
  intro t
  unfold unpad
  rw [if_neg (by decide)]

/-- Witness for `pad_unpad_roundtrip` at `s = [65, 66]`, `n = 4`. -/
theorem pad_unpad_roundtrip_witness :
    (∃ padded, pad [65, 66] 4 schemePkcs7 = Except.ok padded ∧
       unpad padded schemePkcs7 = Except.ok [65, 66]) ∧
    (∀ t : List Nat, unpad t schemeZeros = Except.error ("Unknow padding scheme")) :=
  pad_unpad_roundtrip [65, 66] 4 (by decide) (by decide)

/-- C3 counterexample: the claim includes the `zeros` scheme, but
unpadding a zeros-padded sequence fails (`unpad` only knows pkcs#7), so
`unpad(pad(s, n, p), p) = s` is false at `s = []`, `n = 1`, `p = zeros`. -/
theorem pad_unpad_zeros_counterexample :
    pad [] 1 schemeZeros = Except.ok [0] ∧
    unpad [0] schemeZeros = Except.error ("Unknow padding scheme") := by
  constructor
  · rfl
  · rfl

/-- Helper: XOR of equal-length byte lists cancels pointwise. -/
theorem zipWith_xor_cancel (a b : List Nat) (h : a.length = b.length) :
    List.zipWith (· ^^^ ·) (List.zipWith (· ^^^ ·) a b) b = a := by
  induction a generalizing b with
  | nil => cases b with
    | nil => rfl
    | cons y ys => simp at h
  | cons x xs ih =>
    cases b with
    | nil => simp at h
    | cons y ys =>
      simp only [List.zipWith_cons_cons]
      rw [ih ys (by simpa using h)]
      rw [Nat.xor_cancel_right]

/-- C8: XOR is self-inverse on equal-length byte sequences:
`(a ^ b) ^ b = a`. -/
theorem xor_self_inverse (a b : List Nat) (h : a.length = b.length) :
    ∃ c, seqXor a (ByteOperand.fin b) = Except.ok c ∧
      seqXor c (ByteOperand.fin b) = Except.ok a := by
  refine ⟨List.zipWith (· ^^^ ·) a b, ?_, ?_⟩
  · simp [seqXor, h]
  · have hlen : (List.zipWith (fun x1 x2 => x1 ^^^ x2) a b).length = b.length := by
      simp [h]
    simp [seqXor, hlen, zipWith_xor_cancel a b h]

/-- Witness for `xor_self_inverse` at `a = [1, 2]`, `b = [255, 0]`. -/
theorem xor_self_inverse_witness :
    ∃ c, seqXor [1, 2] (ByteOperand.fin [255, 0]) = Except.ok c ∧
      seqXor c (ByteOperand.fin [255, 0]) = Except.ok [1, 2] :=
  xor_self_inverse [1, 2] [255, 0] (by decide)

/-- C7 (amended): XOR of two finite sequences of different lengths fails
with the message naming both lengths; XOR against a keystream view over a
non-empty base succeeds and is truncated to the finite operand length.
(Over an empty base the zip produces the empty string instead.) -/
theorem xor_length_rules :
    (∀ a b : List Nat, a.length ≠ b.length →
       seqXor a (ByteOperand.fin b) = Except.error (mismatchMsg a.length b.length)) ∧
    (∀ (a base : List Nat), base ≠ [] →
       ∃ r, seqXor a (ByteOperand.inf base) = Except.ok r ∧ r.length = a.length) := by
  constructor
  · intro a b h
    simp [seqXor, h]
  · intro a base hb
    refine ⟨List.zipWith Nat.xor a (cycleTake base a.length), rfl, ?_⟩
    have hc : (cycleTake base a.length).length = a.length := by
      simp [cycleTake, List.isEmpty_iff, hb]
    simp [hc]

/-- Witness for `xor_length_rules`: lengths 2 and 3 fail; a keystream of
base length 1 under a 2-byte operand yields 2 bytes. -/
theorem xor_length_rules_witness :
    seqXor [1, 2] (ByteOperand.fin [0, 0, 0]) =
      Except.error (mismatchMsg 2 3) ∧
    (∃ r, seqXor [1, 2] (ByteOperand.inf [7]) = Except.ok r ∧ r.length = 2) := by
  constructor
  · exact xor_length_rules.1 [1, 2] [0, 0, 0] (by decide)
  · exact xor_length_rules.2 [1, 2] [7] (by decide)

/-- C7 counterexample: against a keystream view over an *empty* base the
XOR succeeds but returns the empty string, not a result of the finite
operand length, so the claim as stated fails at `a = [1]`, base `[]`. -/
theorem xor_empty_keystream_counterexample :
    seqXor [1] (ByteOperand.inf []) = Except.ok [] ∧ (0 : Nat) ≠ 1 := by
  constructor
  · rfl
  · decide

/-- C9: `most_likely` on an empty fuzzy set raises IndexError, both with
`n` omitted and with any `n` given. -/
theorem most_likely_empty_raises (fs : FuzzySet Nat) (h : fs.entries = []) :
    most_likely_none fs = Except.error ("IndexError") ∧
    ∀ n : Nat, most_likely_n fs n = Except.error ("IndexError") := by
  constructor
  · simp [most_likely_none, nlargest, sortDesc, h]
  · intro n
    simp [most_likely_n, nlargest, sortDesc, h]

/-- Witness for `most_likely_empty_raises` at the empty set with
`min_membership = 0` (checking `n = 0` and `n = 3`). -/
theorem most_likely_empty_raises_witness :
    most_likely_none (⟨[], 0⟩ : FuzzySet Nat) = Except.error ("IndexError") ∧
    most_likely_n (⟨[], 0⟩ : FuzzySet Nat) 0 = Except.error ("IndexError") ∧
    most_likely_n (⟨[], 0⟩ : FuzzySet Nat) 3 = Except.error ("IndexError") :=
  ⟨(most_likely_empty_raises ⟨[], 0⟩ rfl).1,
   (most_likely_empty_raises ⟨[], 0⟩ rfl).2 0,
   (most_likely_empty_raises ⟨[], 0⟩ rfl).2 3⟩

/-- Helper: inserting permutes. -/
theorem insertDesc_perm [DecidableEq α] (x : α × ℚ) (l : List (α × ℚ)) :
    (insertDesc x l).Perm (x :: l) := by
  induction l with
  | nil => exact List.Perm.refl _
  | cons y ys ih =>
    unfold insertDesc
    by_cases h : x.2 < y.2
    · rw [if_pos h]
      exact (ih.cons y).trans (List.Perm.swap x y ys)
    · rw [if_neg h]

/-- Helper: `sortDesc` permutes its input. -/
theorem sortDesc_perm [DecidableEq α] (l : List (α × ℚ)) :
    (sortDesc l).Perm l := by
  induction l with
  | nil => exact List.Perm.refl _
  | cons x xs ih =>
    exact (insertDesc_perm x (sortDesc xs)).trans (ih.cons x)

/-- Helper: inserting preserves descending-weight sortedness. -/
theorem insertDesc_pairwise [DecidableEq α] (x : α × ℚ) (l : List (α × ℚ))
    (h : l.Pairwise (fun a b => b.2 ≤ a.2)) :
    (insertDesc x l).Pairwise (fun a b => b.2 ≤ a.2) := by
  induction l with
  | nil => simp [insertDesc]
  | cons y ys ih =>
    have h1 : ∀ b ∈ ys, b.2 ≤ y.2 := (List.pairwise_cons.mp h).1
    have h2 : ys.Pairwise (fun a b => b.2 ≤ a.2) := (List.pairwise_cons.mp h).2
    unfold insertDesc
    by_cases hlt : x.2 < y.2
    · rw [if_pos hlt]
      rw [List.pairwise_cons]
      refine ⟨?_, ih h2⟩
      intro b hb
      rcases List.mem_cons.mp ((insertDesc_perm x ys).mem_iff.mp hb) with hbx | hby
      · rw [hbx]
        exact le_of_lt hlt
      · exact h1 b hby
    · rw [if_neg hlt]
      rw [List.pairwise_cons]
      refine ⟨?_, h⟩
      intro b hb
      rcases List.mem_cons.mp hb with hby | hbys
      · rw [hby]
        exact le_of_not_lt hlt
      · exact le_trans (h1 b hbys) (le_of_not_lt hlt)

/-- Helper: `sortDesc` sorts by descending weight. -/
theorem sortDesc_pairwise [DecidableEq α] (l : List (α × ℚ)) :
    (sortDesc l).Pairwise (fun a b => b.2 ≤ a.2) := by
  induction l with
  | nil => simp [sortDesc]
  | cons x xs ih => exact insertDesc_pairwise x (sortDesc xs) ih

/-- Helper: the head of the stable descending sort is the earliest entry
of maximal weight. -/
theorem sortDesc_head [DecidableEq α] (l : List (α × ℚ)) :
    (sortDesc l).head? = firstMax l := by
  induction l with
  | nil => rfl
  | cons x xs ih =>
    show (insertDesc x (sortDesc xs)).head? = firstMax (x :: xs)
    cases hcs : sortDesc xs with
    | nil =>
      have hfm : firstMax xs = none := by
        rw [← ih, hcs]
        rfl
      simp [insertDesc, firstMax, hfm]
    | cons y ys =>
      have hfm : firstMax xs = some y := by
        rw [← ih, hcs]
        rfl
      by_cases hlt : x.2 < y.2
      · simp [insertDesc, hlt, firstMax, hfm]
      · simp [insertDesc, hlt, firstMax, hfm]

/-- C5 (amended): `most_likely()` returns the highest-weight candidate,
with ties between equal weights broken by insertion order (the earliest
inserted wins — not by the natural ordering of the keys); and
`most_likely(n)` returns the keys of the first `n` entries of the stable
descending sort of the set, which is a descending-weight permutation of
the entries. -/
theorem most_likely_spec (fs : FuzzySet Nat) (kw : Nat × ℚ)
    (h : firstMax fs.entries = some kw) :
    most_likely_none fs = Except.ok kw.1 ∧
    kw ∈ fs.entries ∧
    (∀ p ∈ fs.entries, p.2 ≤ kw.2) ∧
    (∀ n : Nat, 0 < n →
      most_likely_n fs n = Except.ok (((sortDesc fs.entries).take n).map Prod.fst)) ∧
    (sortDesc fs.entries).Perm fs.entries ∧
    (sortDesc fs.entries).Pairwise (fun a b => b.2 ≤ a.2) := by
  have hhead : (sortDesc fs.entries).head? = some kw := by
    rw [sortDesc_head]
    exact h
  obtain ⟨rest, hrest⟩ : ∃ rest, sortDesc fs.entries = kw :: rest := by
    cases hcs : sortDesc fs.entries with
    | nil =>
      rw [hcs] at hhead
      exact absurd hhead (by simp)
    | cons z zs =>
      rw [hcs] at hhead
      have hz : z = kw := by simpa using hhead
      exact ⟨zs, by rw [hz]⟩
  have hperm := sortDesc_perm fs.entries
  have hpair := sortDesc_pairwise fs.entries
  refine ⟨?_, ?_, ?_, ?_, hperm, hpair⟩
  · unfold most_likely_none nlargest
    rw [hrest]
    rfl
  · exact hperm.mem_iff.mp (by rw [hrest]; exact List.mem_cons_self kw rest)
  · intro p hp
    have hp2 : p ∈ kw :: rest := by
      rw [← hrest]
      exact hperm.mem_iff.mpr hp
    rcases List.mem_cons.mp hp2 with h1 | h1
    · rw [h1]
    · rw [hrest] at hpair
      exact (List.pairwise_cons.mp hpair).1 p h1
  · intro n hn
    unfold most_likely_n nlargest
    rw [hrest]
    cases n with
    | zero => exact absurd hn (by omega)
    | succ m => simp

/-- Witness for `most_likely_spec` on the set `{10 -> 1/2, 20 -> 3/4}`. -/
theorem most_likely_spec_witness :
    most_likely_none (⟨[(10, (1 : ℚ)/2), (20, 3/4)], 0⟩ : FuzzySet Nat) = Except.ok 20 ∧
    most_likely_n (⟨[(10, (1 : ℚ)/2), (20, 3/4)], 0⟩ : FuzzySet Nat) 2 =
      Except.ok [20, 10] := by
  constructor
  · exact (most_likely_spec ⟨[(10, (1 : ℚ)/2), (20, 3/4)], 0⟩ (20, 3/4)
      (by with_unfolding_all decide)).1
  · have h2 := (most_likely_spec ⟨[(10, (1 : ℚ)/2), (20, 3/4)], 0⟩ (20, 3/4)
      (by with_unfolding_all decide)).2.2.2.1 2 (by decide)
    rw [h2]
    with_unfolding_all decide

/-- Helper: a pair in `dictSetRaw l k v` comes from `l` or is `(k, v)`. -/
theorem mem_dictSetRaw [DecidableEq α] (l : List (α × ℚ)) (k : α) (v : ℚ) (p : α × ℚ)
    (hp : p ∈ dictSetRaw l k v) : p ∈ l ∨ p = (k, v) := by
  unfold dictSetRaw at hp
  by_cases h : l.any (fun q => decide (q.1 = k))
  · rw [if_pos h] at hp
    obtain ⟨q, hq, hfq⟩ := List.mem_map.mp hp
    by_cases hqk : q.1 = k
    · right
      rw [← hfq, if_pos hqk]
    · left
      rw [← hfq, if_neg hqk]
      exact hq
  · rw [if_neg h] at hp
    rcases List.mem_append.mp hp with h1 | h1
    · left
      exact h1
    · right
      simpa using h1

/-- Helper: weight properties carry through building a Python dict. -/
theorem dictOfPairs_prop [DecidableEq α] (P : ℚ → Prop) :
    ∀ (l acc : List (α × ℚ)), (∀ p ∈ acc, P p.2) → (∀ p ∈ l, P p.2) →
      ∀ p ∈ l.foldl (fun a q => dictSetRaw a q.1 q.2) acc, P p.2 := by
  intro l
  induction l with
  | nil =>
    intro acc ha _ p hp
    exact ha p hp
  | cons q qs ih =>
    intro acc ha hl p hp
    refine ih (dictSetRaw acc q.1 q.2) ?_ (fun r hr => hl r (List.mem_cons_of_mem q hr)) p hp
    intro r hr
    rcases mem_dictSetRaw acc q.1 q.2 r hr with h1 | h1
    · exact ha r h1
    · rw [h1]
      exact hl q (List.mem_cons_self q qs)

/-- Helper: the constructor establishes the invariant whenever it
returns at all. -/
theorem fsFromPairs_inv [DecidableEq α] (pairs : List (α × ℚ)) (minm : ℚ)
    (fs : FuzzySet α) (h : fsFromPairs pairs minm = Except.ok fs) : fuzzyInv fs := by
  unfold fsFromPairs at h
  by_cases hb : 0 ≤ minm ∧ minm ≤ 1
  · rw [if_neg (not_not_intro hb)] at h
    by_cases hall : (pairs.filter (fun p => decide (minm < p.2))).all (fun p => checkProb p.2)
    · rw [if_pos hall] at h
      injection h with h2
      subst h2
      refine ⟨hb.1, hb.2, ?_⟩
      intro p hp
      have hprop : ∀ q ∈ pairs.filter (fun r => decide (minm < r.2)),
          minm < q.2 ∧ q.2 ≤ 1 := by
        intro q hq
        have h1 : minm < q.2 := by simpa using (List.mem_filter.mp hq).2
        have h2 : checkProb q.2 = true := by
          have := List.all_eq_true.mp hall q hq
          simpa using this
        have h3 : q.2 ≤ 1 := by
          have := (Bool.and_eq_true _ _).mp h2
          simpa using this.2
        exact ⟨h1, h3⟩
      have := dictOfPairs_prop (fun v => minm < v ∧ v ≤ 1) _ [] (by simp)
        hprop p hp
      exact ⟨le_of_lt this.1, this.2, by
        have : 0 < p.2 := lt_of_le_of_lt hb.1 this.1
        exact ne_of_gt this⟩
    · rw [if_neg hall] at h
      exact absurd h (by simp)
  · rw [if_pos hb] at h
    exact absurd h (by simp)

/-- Helper: `__setitem__` preserves the invariant. -/
theorem setitem_inv [DecidableEq α] (fs : FuzzySet α) (k : α) (prob : ℚ)
    (fs2 : FuzzySet α) (hInv : fuzzyInv fs) (h : setitem fs k prob = Except.ok fs2) :
    fuzzyInv fs2 := by
  unfold setitem at h
  by_cases h1 : 0 ≤ prob ∧ prob ≤ 1
  · rw [if_neg (not_not_intro h1)] at h
    by_cases h2 : prob < fs.min_membership ∨ prob = 0
    · rw [if_pos h2] at h
      injection h with h3
      subst h3
      refine ⟨hInv.1, hInv.2.1, ?_⟩
      intro p hp
      exact hInv.2.2 p (List.mem_of_mem_filter hp)
    · rw [if_neg h2] at h
      injection h with h3
      subst h3
      push_neg at h2
      refine ⟨hInv.1, hInv.2.1, ?_⟩
      intro p hp
      rcases mem_dictSetRaw _ _ _ p hp with hm | hm
      · exact hInv.2.2 p hm
      · rw [hm]
        exact ⟨h2.1, h1.2, h2.2⟩
  · rw [if_pos h1] at h
    exact absurd h (by simp)

/-- Helper: a fold of `__setitem__` calls preserves the invariant,
whatever weights the loop computes. -/
theorem foldlM_setitem_inv [DecidableEq α] (val : FuzzySet α → α × ℚ → ℚ) :
    ∀ (l : List (α × ℚ)) (fs fs2 : FuzzySet α), fuzzyInv fs →
      l.foldlM (fun acc p => setitem acc p.1 (val acc p)) fs = Except.ok fs2 →
      fuzzyInv fs2 := by
  intro l
  induction l with
  | nil =>
    intro fs fs2 h1 h2
    rw [List.foldlM_nil] at h2
    injection h2 with h3
    subst h3
    exact h1
  | cons q qs ih =>
    intro fs fs2 h1 h2
    rw [List.foldlM_cons] at h2
    cases hs : setitem fs q.1 (val fs q) with
    | error e =>
      rw [hs] at h2
      exact absurd h2 (by simp [Bind.bind, Except.bind])
    | ok mid =>
      rw [hs] at h2
      exact ih mid fs2 (setitem_inv fs q.1 (val fs q) mid h1 hs)
        (by simpa [Bind.bind, Except.bind] using h2)

/-- C6 (amended): every operation keeps each stored weight in
`[min_membership, 1]` and non-zero, with `min_membership` itself in
`[0, 1]`; a weight outside `[0, 1]` is rejected with an error, and
assigning a weight *strictly below* `min_membership` or equal to 0
removes the key — but a weight exactly equal to a non-zero
`min_membership` is stored, so "strictly greater" is preserved by
construction only, not by item assignment. -/
theorem fuzzy_set_invariant (α : Type) [DecidableEq α] :
    (∀ (pairs : List (α × ℚ)) (minm : ℚ) (fs : FuzzySet α),
       fsFromPairs pairs minm = Except.ok fs → fuzzyInv fs) ∧
    (∀ (fs : FuzzySet α) (k : α) (prob : ℚ) (fs2 : FuzzySet α),
       fuzzyInv fs → setitem fs k prob = Except.ok fs2 → fuzzyInv fs2) ∧
    (∀ (fs : FuzzySet α) (k : α) (prob : ℚ), ¬ (0 ≤ prob ∧ prob ≤ 1) →
       setitem fs k prob = Except.error ("ValueError: membership out of range")) ∧
    (∀ (fs : FuzzySet α) (k : α) (prob : ℚ), 0 ≤ prob → prob ≤ 1 →
       (prob < fs.min_membership ∨ prob = 0) →
       setitem fs k prob = Except.ok ⟨dictRemove fs.entries k, fs.min_membership⟩ ∧
       ∀ p ∈ dictRemove fs.entries k, ¬ p.1 = k) ∧
    (∀ (fs : FuzzySet α) (n : ℚ) (fs2 : FuzzySet α),
       fuzzyInv fs → scale fs n = Except.ok fs2 → fuzzyInv fs2) ∧
    (∀ (fs fs2 : FuzzySet α), fuzzyInv fs → normalize fs = Except.ok fs2 → fuzzyInv fs2) ∧
    (∀ (a b u : FuzzySet α), union a b = Except.ok u → fuzzyInv u) ∧
    (∀ (a b u : FuzzySet α), intersection a b = Except.ok u → fuzzyInv u) ∧
    (∀ (fs : FuzzySet α) (n : PyNum), fuzzyInv fs → fuzzyInv (cut_off fs n)) := by
  refine ⟨fsFromPairs_inv, setitem_inv, ?_, ?_, ?_, ?_, ?_, ?_, ?_⟩
  · intro fs k prob h
    unfold setitem
    rw [if_pos h]
  · intro fs k prob h0 h1 h2
    constructor
    · unfold setitem
      rw [if_neg (not_not_intro ⟨h0, h1⟩), if_pos h2]
    · intro p hp
      have := (List.mem_filter.mp hp).2
      simpa using this
  · intro fs n fs2 hInv h
    exact foldlM_setitem_inv (fun acc p => dictGet acc.entries p.1 * n) fs.entries
      fs fs2 hInv h
  · intro fs fs2 hInv h
    unfold normalize at h
    by_cases hs : 0 < (fs.entries.map Prod.snd).sum
    · rw [if_pos hs] at h
      exact foldlM_setitem_inv _ fs.entries fs fs2 hInv h
    · rw [if_neg hs] at h
      injection h with h3
      subst h3
      exact hInv
  · intro a b u h
    unfold union at h
    cases hc : fsFromPairs
        (if b.entries.length > a.entries.length then b else a).entries (0 : ℚ) with
    | error e =>
      rw [hc] at h
      exact absurd h (by simp [Bind.bind, Except.bind])
    | ok tmp0 =>
      rw [hc] at h
      exact foldlM_setitem_inv _ _ tmp0 u (fsFromPairs_inv _ _ _ hc)
        (by simpa [Bind.bind, Except.bind] using h)
  · intro a b u h
    unfold intersection at h
    have hbase : fuzzyInv (⟨[], 0⟩ : FuzzySet α) := by
      refine ⟨le_refl 0, by norm_num, ?_⟩
      intro p hp
      exact absurd hp (by simp)
    exact foldlM_setitem_inv _ _ _ u hbase h
  · intro fs n hInv
    cases n with
    | int z =>
      refine ⟨hInv.1, hInv.2.1, ?_⟩
      intro p hp
      have h1 : p ∈ sortDesc fs.entries := List.mem_of_mem_take hp
      exact hInv.2.2 p ((sortDesc_perm fs.entries).mem_iff.mp h1)
    | float q =>
      refine ⟨hInv.1, hInv.2.1, ?_⟩
      intro p hp
      exact hInv.2.2 p (List.mem_of_mem_filter hp)

/-- Witness for `fuzzy_set_invariant`: construction, an in-range store,
an out-of-range rejection, a below-minimum removal, and a union, all on
concrete sets over `Nat` keys. -/
theorem fuzzy_set_invariant_witness :
    fuzzyInv (⟨[(5, 1), (6, (1 : ℚ)/2)], 0⟩ : FuzzySet Nat) ∧
    fuzzyInv (⟨[(5, 1), (6, (1 : ℚ)/2), (7, (3 : ℚ)/4)], 0⟩ : FuzzySet Nat) ∧
    setitem (⟨[(5, 1)], 0⟩ : FuzzySet Nat) 6 2 =
      Except.error ("ValueError: membership out of range") ∧
    setitem (⟨[(5, 1), (6, (1 : ℚ)/2)], (1 : ℚ)/2⟩ : FuzzySet Nat) 6 ((1 : ℚ)/4) =
      Except.ok ⟨[(5, 1)], (1 : ℚ)/2⟩ ∧
    fuzzyInv (⟨[(5, 1), (6, (1 : ℚ)/2)], 0⟩ : FuzzySet Nat) := by
  refine ⟨?_, ?_, ?_, ?_, ?_⟩
  · exact (fuzzy_set_invariant Nat).1 [(5, 1), (6, (1 : ℚ)/2)] 0 _
      (by with_unfolding_all decide)
  · exact (fuzzy_set_invariant Nat).2.1 (⟨[(5, 1), (6, (1 : ℚ)/2)], 0⟩ : FuzzySet Nat)
      7 ((3 : ℚ)/4) _
      ((fuzzy_set_invariant Nat).1 [(5, 1), (6, (1 : ℚ)/2)] 0 _
        (by with_unfolding_all decide))
      (by with_unfolding_all decide)
  · exact (fuzzy_set_invariant Nat).2.2.1 (⟨[(5, 1)], 0⟩ : FuzzySet Nat) 6 2
      (by norm_num)
  · have h := ((fuzzy_set_invariant Nat).2.2.2.1
      (⟨[(5, 1), (6, (1 : ℚ)/2)], (1 : ℚ)/2⟩ : FuzzySet Nat) 6 ((1 : ℚ)/4)
      (by norm_num) (by norm_num) (Or.inl (by norm_num))).1
    rw [h]
    with_unfolding_all decide
  · exact (fuzzy_set_invariant Nat).2.2.2.2.2.2.1
      (⟨[(5, 1)], (1 : ℚ)/4⟩ : FuzzySet Nat)
      (⟨[(6, (1 : ℚ)/2)], (1 : ℚ)/4⟩ : FuzzySet Nat) _
      (by with_unfolding_all decide)

/-- C6 counterexample: with `min_membership = 1/2`, assigning weight
exactly `1/2` stores the key instead of removing it (`__setitem__` tests
`prob < min_membership`, not `≤`), so a stored weight is *not* strictly
greater than `min_membership`. -/
theorem setitem_at_min_counterexample :
    setitem (⟨[(0, 1)], (1 : ℚ)/2⟩ : FuzzySet Nat) 1 ((1 : ℚ)/2) =
      Except.ok ⟨[(0, 1), (1, (1 : ℚ)/2)], (1 : ℚ)/2⟩ ∧
    (1, (1 : ℚ)/2) ∈ [((0 : Nat), (1 : ℚ)), (1, (1 : ℚ)/2)] ∧
    ¬ ((1 : ℚ)/2 > (1 : ℚ)/2) := by
  refine ⟨by with_unfolding_all decide, by with_unfolding_all decide, by norm_num⟩

/-- Helper: reading beside a heap write. -/
theorem getD_set_ne (l : List β) (i j : Nat) (v d : β) (h : ¬ i = j) :
    (l.set i v).getD j d = l.getD j d := by
  simp [List.getD, List.getElem?_set_ne h]

/-- Helper: reading a heap write back. -/
theorem getD_set_self (l : List β) (i : Nat) (v d : β) (h : i < l.length) :
    (l.set i v).getD i d = v := by
  simp [List.getD, List.getElem?_set_self, h]

/-- Helper: reading below a fresh allocation. -/
theorem getD_append_left (l1 l2 : List β) (i : Nat) (d : β) (h : i < l1.length) :
    (l1 ++ l2).getD i d = l1.getD i d := by
  simp [List.getD, List.getElem?_append, h]

/-- Helper: reading a fresh allocation. -/
theorem getD_append_self (l1 : List β) (x d : β) :
    (l1 ++ [x]).getD l1.length d = x := by
  simp [List.getD, List.getElem?_append_right (le_refl l1.length)]

/-- Helper: the `tmp[k] = ...` loops of `union`/`intersection` on the
heap write only the `tmp` cell, and that cell evolves exactly like the
value-level fold. -/
theorem storeFold_spec [DecidableEq α] (val : FuzzySet α → α × ℚ → ℚ) (tmpR : Nat) :
    ∀ (l : List (α × ℚ)) (σ σ2 : List (FuzzySet α)), tmpR < σ.length →
      l.foldlM (fun σ p =>
          (setitem (σ.getD tmpR ⟨[], 0⟩) p.1 (val (σ.getD tmpR ⟨[], 0⟩) p)).bind
            (fun t2 => Except.ok (σ.set tmpR t2))) σ = Except.ok σ2 →
      σ2.length = σ.length ∧
      (∀ i, ¬ i = tmpR → σ2.getD i (⟨[], 0⟩ : FuzzySet α) = σ.getD i ⟨[], 0⟩) ∧
      l.foldlM (fun t p => setitem t p.1 (val t p)) (σ.getD tmpR ⟨[], 0⟩) =
        Except.ok (σ2.getD tmpR ⟨[], 0⟩) := by
  intro l
  induction l with
  | nil =>
    intro σ σ2 hlen h
    rw [List.foldlM_nil] at h
    injection h with h2
    subst h2
    exact ⟨rfl, fun i _ => rfl, by rw [List.foldlM_nil]; rfl⟩
  | cons q qs ih =>
    intro σ σ2 hlen h
    rw [List.foldlM_cons] at h
    cases hs : setitem (σ.getD tmpR ⟨[], 0⟩) q.1 (val (σ.getD tmpR ⟨[], 0⟩) q) with
    | error e =>
      rw [hs] at h
      exact absurd h (by simp [Bind.bind, Except.bind])
    | ok t2 =>
      rw [hs] at h
      have h2 : qs.foldlM (fun σ p =>
          (setitem (σ.getD tmpR ⟨[], 0⟩) p.1 (val (σ.getD tmpR ⟨[], 0⟩) p)).bind
            (fun t2 => Except.ok (σ.set tmpR t2))) (σ.set tmpR t2) = Except.ok σ2 := by
        simpa [Bind.bind, Except.bind] using h
      have hlen2 : tmpR < (σ.set tmpR t2).length := by
        simpa using hlen
      obtain ⟨e1, e2, e3⟩ := ih (σ.set tmpR t2) σ2 hlen2 h2
      refine ⟨by simpa using e1, ?_, ?_⟩
      · intro i hi
        rw [e2 i hi, getD_set_ne σ tmpR i t2 _ (fun hh => hi hh.symm)]
      · rw [List.foldlM_cons, hs]
        have h3 : (σ.set tmpR t2).getD tmpR (⟨[], 0⟩ : FuzzySet α) = t2 :=
          getD_set_self σ tmpR t2 _ hlen
        rw [h3] at e3
        simpa [Bind.bind, Except.bind] using e3

/-- C10: `union` and `intersection` allocate and return a fresh set and
leave every pre-existing heap cell — in particular both operands —
untouched; the returned cell holds exactly the value-level
union/intersection.  The in-place variants `|=` and `&=` overwrite only
the receiver (which keeps its own `min_membership` and takes the
entries of the computed union/intersection) and leave the other operand
and all other pre-existing cells unchanged. -/
theorem union_intersection_frame (α : Type) [DecidableEq α]
    (st : List (FuzzySet α)) (aR bR : Nat)
    (ha : aR < st.length) (hb : bR < st.length) (hab : ¬ aR = bR) :
    (∀ st2 r, unionStore st aR bR = Except.ok (st2, r) →
       r = st.length ∧ st2.length = st.length + 1 ∧
       (∀ i, i < st.length → st2.getD i (⟨[], 0⟩ : FuzzySet α) = st.getD i ⟨[], 0⟩) ∧
       union (st.getD aR ⟨[], 0⟩) (st.getD bR ⟨[], 0⟩) =
         Except.ok (st2.getD r ⟨[], 0⟩)) ∧
    (∀ st2 r, intersectionStore st aR bR = Except.ok (st2, r) →
       r = st.length ∧ st2.length = st.length + 1 ∧
       (∀ i, i < st.length → st2.getD i (⟨[], 0⟩ : FuzzySet α) = st.getD i ⟨[], 0⟩) ∧
       intersection (st.getD aR ⟨[], 0⟩) (st.getD bR ⟨[], 0⟩) =
         Except.ok (st2.getD r ⟨[], 0⟩)) ∧
    (∀ st2 r, iorStore st aR bR = Except.ok (st2, r) →
       r = aR ∧ st2.getD bR (⟨[], 0⟩ : FuzzySet α) = st.getD bR ⟨[], 0⟩ ∧
       (∀ i, i < st.length → ¬ i = aR →
         st2.getD i (⟨[], 0⟩ : FuzzySet α) = st.getD i ⟨[], 0⟩) ∧
       ∃ u, union (st.getD aR ⟨[], 0⟩) (st.getD bR ⟨[], 0⟩) = Except.ok u ∧
         st2.getD aR (⟨[], 0⟩ : FuzzySet α) =
           ⟨u.entries, (st.getD aR (⟨[], 0⟩ : FuzzySet α)).min_membership⟩) ∧
    (∀ st2 r, iandStore st aR bR = Except.ok (st2, r) →
       r = aR ∧ st2.getD bR (⟨[], 0⟩ : FuzzySet α) = st.getD bR ⟨[], 0⟩ ∧
       (∀ i, i < st.length → ¬ i = aR →
         st2.getD i (⟨[], 0⟩ : FuzzySet α) = st.getD i ⟨[], 0⟩) ∧
       ∃ u, intersection (st.getD aR ⟨[], 0⟩) (st.getD bR ⟨[], 0⟩) = Except.ok u ∧
         st2.getD aR (⟨[], 0⟩ : FuzzySet α) =
           ⟨u.entries, (st.getD aR (⟨[], 0⟩ : FuzzySet α)).min_membership⟩) := by
  have hunion : ∀ st2 r, unionStore st aR bR = Except.ok (st2, r) →
      r = st.length ∧ st2.length = st.length + 1 ∧
      (∀ i, i < st.length → st2.getD i (⟨[], 0⟩ : FuzzySet α) = st.getD i ⟨[], 0⟩) ∧
      union (st.getD aR ⟨[], 0⟩) (st.getD bR ⟨[], 0⟩) =
        Except.ok (st2.getD r ⟨[], 0⟩) := by
    intro st2 r h
    unfold unionStore at h
    cases hc : fsFromPairs
        (if (st.getD bR (⟨[], 0⟩ : FuzzySet α)).entries.length >
            (st.getD aR (⟨[], 0⟩ : FuzzySet α)).entries.length
         then st.getD bR ⟨[], 0⟩ else st.getD aR ⟨[], 0⟩).entries (0 : ℚ) with
    | error e =>
      rw [hc] at h
      exact absurd h (by simp [Except.bind])
    | ok tmp0 =>
      rw [hc] at h
      have h2 : ((if (st.getD bR (⟨[], 0⟩ : FuzzySet α)).entries.length >
            (st.getD aR (⟨[], 0⟩ : FuzzySet α)).entries.length
          then st.getD aR ⟨[], 0⟩ else st.getD bR ⟨[], 0⟩).entries.foldlM
          (fun σ p =>
            (setitem (σ.getD st.length ⟨[], 0⟩) p.1
              (max (dictGet (σ.getD st.length (⟨[], 0⟩ : FuzzySet α)).entries p.1) p.2)).bind
            (fun t2 => Except.ok (σ.set st.length t2)))
          (st ++ [tmp0])).bind
          (fun st3 => Except.ok (st3, st.length)) = Except.ok (st2, r) := by
        simpa [Except.bind] using h
      cases hf : (if (st.getD bR (⟨[], 0⟩ : FuzzySet α)).entries.length >
            (st.getD aR (⟨[], 0⟩ : FuzzySet α)).entries.length
          then st.getD aR ⟨[], 0⟩ else st.getD bR ⟨[], 0⟩).entries.foldlM
          (fun σ p =>
            (setitem (σ.getD st.length ⟨[], 0⟩) p.1
              (max (dictGet (σ.getD st.length (⟨[], 0⟩ : FuzzySet α)).entries p.1) p.2)).bind
            (fun t2 => Except.ok (σ.set st.length t2)))
          (st ++ [tmp0]) with
      | error e =>
        rw [hf] at h2
        exact absurd h2 (by simp [Except.bind])
      | ok st3 =>
        rw [hf] at h2
        have hpair : st3 = st2 ∧ st.length = r := by
          have h4 : (st3, st.length) = (st2, r) := by
            simpa [Except.bind] using h2
          exact ⟨congrArg Prod.fst h4, congrArg Prod.snd h4⟩
        obtain ⟨hst3, hr⟩ := hpair
        subst hst3
        obtain ⟨e1, e2, e3⟩ := storeFold_spec
          (fun t p => max (dictGet t.entries p.1) p.2)
          st.length _ (st ++ [tmp0]) st3 (by simp) hf
        refine ⟨hr.symm, by simpa using e1, ?_, ?_⟩
        · intro i hi
          rw [e2 i (by omega), getD_append_left st [tmp0] i _ hi]
        · rw [← hr]
          unfold union
          rw [hc]
          have htmp : (st ++ [tmp0]).getD st.length (⟨[], 0⟩ : FuzzySet α) = tmp0 :=
            getD_append_self st tmp0 _
          rw [htmp] at e3
          simpa [Except.bind] using e3
  have hinter : ∀ st2 r, intersectionStore st aR bR = Except.ok (st2, r) →
      r = st.length ∧ st2.length = st.length + 1 ∧
      (∀ i, i < st.length → st2.getD i (⟨[], 0⟩ : FuzzySet α) = st.getD i ⟨[], 0⟩) ∧
      intersection (st.getD aR ⟨[], 0⟩) (st.getD bR ⟨[], 0⟩) =
        Except.ok (st2.getD r ⟨[], 0⟩) := by
    intro st2 r h
    unfold intersectionStore at h
    cases hf : (if (st.getD bR (⟨[], 0⟩ : FuzzySet α)).entries.length <
          (st.getD aR (⟨[], 0⟩ : FuzzySet α)).entries.length
        then st.getD bR ⟨[], 0⟩ else st.getD aR ⟨[], 0⟩).entries.foldlM
        (fun σ p =>
          (setitem (σ.getD st.length ⟨[], 0⟩) p.1
            (min (dictGet (if (st.getD bR (⟨[], 0⟩ : FuzzySet α)).entries.length <
                (st.getD aR (⟨[], 0⟩ : FuzzySet α)).entries.length
              then st.getD aR ⟨[], 0⟩ else st.getD bR ⟨[], 0⟩).entries p.1) p.2)).bind
          (fun t2 => Except.ok (σ.set st.length t2)))
        (st ++ [(⟨[], 0⟩ : FuzzySet α)]) with
    | error e =>
      rw [hf] at h
      exact absurd h (by simp [Except.bind])
    | ok st3 =>
      rw [hf] at h
      have hpair : st3 = st2 ∧ st.length = r := by
        have h4 : (st3, st.length) = (st2, r) := by
          simpa [Except.bind] using h
        exact ⟨congrArg Prod.fst h4, congrArg Prod.snd h4⟩
      obtain ⟨hst3, hr⟩ := hpair
      subst hst3
      obtain ⟨e1, e2, e3⟩ := storeFold_spec
        (fun t p => min (dictGet (if (st.getD bR (⟨[], 0⟩ : FuzzySet α)).entries.length <
            (st.getD aR (⟨[], 0⟩ : FuzzySet α)).entries.length
          then st.getD aR ⟨[], 0⟩ else st.getD bR ⟨[], 0⟩).entries p.1) p.2)
        st.length _ (st ++ [(⟨[], 0⟩ : FuzzySet α)]) st3 (by simp) hf
      refine ⟨hr.symm, by simpa using e1, ?_, ?_⟩
      · intro i hi
        rw [e2 i (by omega), getD_append_left st _ i _ hi]
      · rw [← hr]
        unfold intersection
        have htmp : (st ++ [(⟨[], 0⟩ : FuzzySet α)]).getD st.length
            (⟨[], 0⟩ : FuzzySet α) = ⟨[], 0⟩ :=
          getD_append_self st _ _
        rw [htmp] at e3
        exact e3
  refine ⟨hunion, hinter, ?_, ?_⟩
  · intro st2 r h
    unfold iorStore at h
    cases hu : unionStore st aR bR with
    | error e =>
      rw [hu] at h
      exact absurd h (by simp [Except.bind])
    | ok p =>
      rw [hu] at h
      have hp : (p.1.set aR ⟨(p.1.getD p.2 (⟨[], 0⟩ : FuzzySet α)).entries,
          (p.1.getD aR (⟨[], 0⟩ : FuzzySet α)).min_membership⟩, aR) = (st2, r) := by
        simpa [Except.bind] using h
      obtain ⟨u1, u2, u3, u4⟩ := hunion p.1 p.2 (by rw [hu])
      have hst2 : st2 = p.1.set aR ⟨(p.1.getD p.2 (⟨[], 0⟩ : FuzzySet α)).entries,
          (p.1.getD aR (⟨[], 0⟩ : FuzzySet α)).min_membership⟩ :=
        (congrArg Prod.fst hp).symm
      have hrr : r = aR := (congrArg Prod.snd hp).symm
      subst hst2
      refine ⟨hrr, ?_, ?_, ?_⟩
      · rw [getD_set_ne _ _ _ _ _ hab, u3 bR hb]
      · intro i hi hia
        rw [getD_set_ne _ _ _ _ _ (fun hh => hia hh.symm), u3 i hi]
      · refine ⟨p.1.getD p.2 ⟨[], 0⟩, by rw [u4], ?_⟩
        rw [getD_set_self _ _ _ _ (by omega), u3 aR ha]
  · intro st2 r h
    unfold iandStore at h
    cases hu : intersectionStore st aR bR with
    | error e =>
      rw [hu] at h
      exact absurd h (by simp [Except.bind])
    | ok p =>
      rw [hu] at h
      have hp : (p.1.set aR ⟨(p.1.getD p.2 (⟨[], 0⟩ : FuzzySet α)).entries,
          (p.1.getD aR (⟨[], 0⟩ : FuzzySet α)).min_membership⟩, aR) = (st2, r) := by
        simpa [Except.bind] using h
      obtain ⟨u1, u2, u3, u4⟩ := hinter p.1 p.2 (by rw [hu])
      have hst2 : st2 = p.1.set aR ⟨(p.1.getD p.2 (⟨[], 0⟩ : FuzzySet α)).entries,
          (p.1.getD aR (⟨[], 0⟩ : FuzzySet α)).min_membership⟩ :=
        (congrArg Prod.fst hp).symm
      have hrr : r = aR := (congrArg Prod.snd hp).symm
      subst hst2
      refine ⟨hrr, ?_, ?_, ?_⟩
      · rw [getD_set_ne _ _ _ _ _ hab, u3 bR hb]
      · intro i hi hia
        rw [getD_set_ne _ _ _ _ _ (fun hh => hia hh.symm), u3 i hi]
      · refine ⟨p.1.getD p.2 ⟨[], 0⟩, by rw [u4], ?_⟩
        rw [getD_set_self _ _ _ _ (by omega), u3 aR ha]

/-- Witness for `union_intersection_frame` on a two-cell heap holding
`{5 -> 1}` and `{6 -> 1}`: after `a.union(b)` both cells are unchanged
and the fresh cell holds the union; after `a |= b` cell 1 is unchanged
and cell 0 holds the union entries. -/
theorem union_intersection_frame_witness :
    (∀ st2 r, unionStore [(⟨[(5, 1)], 0⟩ : FuzzySet Nat), ⟨[(6, 1)], 0⟩] 0 1 =
        Except.ok (st2, r) →
       r = 2 ∧ st2.length = 3 ∧
       (∀ i, i < 2 → st2.getD i (⟨[], 0⟩ : FuzzySet Nat) =
         [(⟨[(5, 1)], 0⟩ : FuzzySet Nat), ⟨[(6, 1)], 0⟩].getD i ⟨[], 0⟩) ∧
       union (⟨[(5, 1)], 0⟩ : FuzzySet Nat) ⟨[(6, 1)], 0⟩ =
         Except.ok (st2.getD r ⟨[], 0⟩)) ∧
    (∀ st2 r, iorStore [(⟨[(5, 1)], 0⟩ : FuzzySet Nat), ⟨[(6, 1)], 0⟩] 0 1 =
        Except.ok (st2, r) →
       r = 0 ∧ st2.getD 1 (⟨[], 0⟩ : FuzzySet Nat) = ⟨[(6, 1)], 0⟩ ∧
       ∃ u, union (⟨[(5, 1)], 0⟩ : FuzzySet Nat) ⟨[(6, 1)], 0⟩ = Except.ok u ∧
         st2.getD 0 (⟨[], 0⟩ : FuzzySet Nat) = ⟨u.entries, 0⟩) := by
  have T := union_intersection_frame Nat
    [(⟨[(5, 1)], 0⟩ : FuzzySet Nat), ⟨[(6, 1)], 0⟩] 0 1
    (by decide) (by decide) (by decide)
  constructor
  · intro st2 r h
    exact T.1 st2 r h
  · intro st2 r h
    obtain ⟨e1, e2, e3, u, hu, he⟩ := T.2.2.1 st2 r h
    exact ⟨e1, e2, u, hu, he⟩

/-- Helper: a left multiplication fold factors through its accumulator. -/
theorem foldl_mul (a : Nat) (t : List Nat) :
    t.foldl (fun x y => x * y) a = a * t.foldl (fun x y => x * y) 1 := by
  induction t generalizing a with
  | nil => simp
  | cons y ys ih =>
    rw [List.foldl_cons, List.foldl_cons, ih (a * y), ih (1 * y)]
    ring

/-- Helper: peel one factor off `prodNat`. -/
theorem prodNat_cons (x : Nat) (t : List Nat) : prodNat (x :: t) = x * prodNat t := by
  unfold prodNat
  rw [List.foldl_cons, foldl_mul (1 * x) t]
  ring

/-- Helper: lowering one counter cannot raise the size product. -/
theorem prodNat_set_le (l : List Nat) (i v : Nat) (h : v ≤ l.getD i 0) :
    prodNat (l.set i v) ≤ prodNat l := by
  induction l generalizing i with
  | nil => simp [List.set]
  | cons x t ih =>
    cases i with
    | zero =>
      rw [List.set_cons_zero, prodNat_cons, prodNat_cons]
      exact Nat.mul_le_mul_right _ (by simpa using h)
    | succ m =>
      rw [List.set_cons_succ, prodNat_cons, prodNat_cons]
      exact Nat.mul_le_mul_left _ (ih m (by simpa using h))

/-- Helper: the shrink loop keeps the counter list length. -/
theorem shrinkLoop_length (cutQ : ℚ) :
    ∀ (vals : List (ℚ × Nat)) (counters : List Nat),
      (shrinkLoop cutQ vals counters).length = counters.length := by
  intro vals
  induction vals with
  | nil => intro counters; rfl
  | cons v rest ih =>
    intro counters
    show (shrinkLoop cutQ (v :: rest) counters).length = counters.length
    unfold shrinkLoop
    by_cases h1 : counters.getD v.2 0 = 1
    · rw [if_pos h1]
      exact ih counters
    · rw [if_neg h1]
      by_cases h2 : (prodNat (counters.set v.2 (counters.getD v.2 0 - 1)) : ℚ) ≤ cutQ
      · rw [if_pos h2]
      · rw [if_neg h2]
        rw [ih _]
        simp

/-- Helper: the shrink loop never raises a counter. -/
theorem shrinkLoop_le (cutQ : ℚ) :
    ∀ (vals : List (ℚ × Nat)) (counters : List Nat) (i : Nat),
      (shrinkLoop cutQ vals counters).getD i 0 ≤ counters.getD i 0 := by
  intro vals
  induction vals with
  | nil => intro counters i; exact le_refl _
  | cons v rest ih =>
    intro counters i
    show (shrinkLoop cutQ (v :: rest) counters).getD i 0 ≤ counters.getD i 0
    unfold shrinkLoop
    by_cases h1 : counters.getD v.2 0 = 1
    · rw [if_pos h1]
      exact ih counters i
    · rw [if_neg h1]
      by_cases h2 : (prodNat (counters.set v.2 (counters.getD v.2 0 - 1)) : ℚ) ≤ cutQ
      · rw [if_pos h2]
      · rw [if_neg h2]
        refine le_trans (ih _ i) ?_
        by_cases h3 : v.2 = i
        · subst h3
          by_cases h4 : v.2 < counters.length
          · rw [getD_set_self counters v.2 _ 0 h4]
            omega
          · rw [List.set_eq_of_length_le (by omega)]
        · rw [getD_set_ne counters v.2 i _ 0 h3]

/-- Helper: the shrink loop keeps every in-range counter at 1 or more. -/
theorem shrinkLoop_ge_one (cutQ : ℚ) :
    ∀ (vals : List (ℚ × Nat)) (counters : List Nat),
      (∀ i, i < counters.length → 1 ≤ counters.getD i 0) →
      ∀ i, i < counters.length → 1 ≤ (shrinkLoop cutQ vals counters).getD i 0 := by
  intro vals
  induction vals with
  | nil => intro counters h i hi; exact h i hi
  | cons v rest ih =>
    intro counters h i hi
    show 1 ≤ (shrinkLoop cutQ (v :: rest) counters).getD i 0
    unfold shrinkLoop
    by_cases h1 : counters.getD v.2 0 = 1
    · rw [if_pos h1]
      exact ih counters h i hi
    · rw [if_neg h1]
      by_cases h2 : (prodNat (counters.set v.2 (counters.getD v.2 0 - 1)) : ℚ) ≤ cutQ
      · rw [if_pos h2]
        exact h i hi
      · rw [if_neg h2]
        refine ih _ ?_ i (by simpa using hi)
        intro m hm
        by_cases h3 : v.2 = m
        · subst h3
          have h4 : v.2 < counters.length := by simpa using hm
          rw [getD_set_self counters v.2 _ 0 h4]
          have := h v.2 h4
          omega
        · rw [getD_set_ne counters v.2 m _ 0 h3]
          exact h m (by simpa using hm)

/-- Helper: if the size product starts above the cut-off, the shrink
loop keeps it above the cut-off (the discard that would reach it is
undone). -/
theorem shrinkLoop_gt (cutQ : ℚ) :
    ∀ (vals : List (ℚ × Nat)) (counters : List Nat),
      cutQ < (prodNat counters : ℚ) →
      cutQ < (prodNat (shrinkLoop cutQ vals counters) : ℚ) := by
  intro vals
  induction vals with
  | nil => intro counters h; exact h
  | cons v rest ih =>
    intro counters h
    show cutQ < (prodNat (shrinkLoop cutQ (v :: rest) counters) : ℚ)
    unfold shrinkLoop
    by_cases h1 : counters.getD v.2 0 = 1
    · rw [if_pos h1]
      exact ih counters h
    · rw [if_neg h1]
      by_cases h2 : (prodNat (counters.set v.2 (counters.getD v.2 0 - 1)) : ℚ) ≤ cutQ
      · rw [if_pos h2]
        exact h
      · rw [if_neg h2]
        exact ih _ (lt_of_not_le h2)

/-- Helper: if the size product already is at or below the cut-off, the
shrink loop changes nothing. -/
theorem shrinkLoop_noop (cutQ : ℚ) :
    ∀ (vals : List (ℚ × Nat)) (counters : List Nat),
      (prodNat counters : ℚ) ≤ cutQ →
      shrinkLoop cutQ vals counters = counters := by
  intro vals
  induction vals with
  | nil => intro counters _; rfl
  | cons v rest ih =>
    intro counters h
    show shrinkLoop cutQ (v :: rest) counters = counters
    unfold shrinkLoop
    by_cases h1 : counters.getD v.2 0 = 1
    · rw [if_pos h1]
      exact ih counters h
    · rw [if_neg h1]
      have hle : (prodNat (counters.set v.2 (counters.getD v.2 0 - 1)) : ℚ) ≤ cutQ := by
        refine le_trans ?_ h
        have := prodNat_set_le counters v.2 (counters.getD v.2 0 - 1) (by omega)
        exact_mod_cast this
      rw [if_pos hle]

/-- C4 (amended): in cardinality mode (`C ≥ 1` an int), `join` shrinks
the input sets by greedily discarding single lowest-weight memberships,
never below 1 member per set — but it stops *just before* the discard
that would bring the product of the remaining sizes to ≤ C and undoes
that discard, so when the initial size product exceeds C the shrunk
product stays strictly above C (and when it is already ≤ C nothing is
discarded at all); it then takes the full cartesian product of the
shrunk sets (weights multiply) and applies a final top-C cutoff. -/
theorem join_cardinality_mode (sets : List (FuzzySet (List Nat))) (z : ℤ) (j : List Nat)
    (hz : 1 ≤ z) :
    (shrinkLoop ((z : ℚ)) (valsOf sets) (sets.map (fun fs => fs.entries.length))).length =
      sets.length ∧
    (∀ i, (shrinkLoop ((z : ℚ)) (valsOf sets)
        (sets.map (fun fs => fs.entries.length))).getD i 0 ≤
      (sets.map (fun fs => fs.entries.length)).getD i 0) ∧
    ((∀ i, i < sets.length →
        1 ≤ (sets.map (fun fs => fs.entries.length)).getD i 0) →
      ∀ i, i < sets.length →
        1 ≤ (shrinkLoop ((z : ℚ)) (valsOf sets)
          (sets.map (fun fs => fs.entries.length))).getD i 0) ∧
    ((z : ℚ) < (prodNat (sets.map (fun fs => fs.entries.length)) : ℚ) →
      (z : ℚ) < (prodNat (shrinkLoop ((z : ℚ)) (valsOf sets)
        (sets.map (fun fs => fs.entries.length))) : ℚ)) ∧
    ((prodNat (sets.map (fun fs => fs.entries.length)) : ℚ) ≤ (z : ℚ) →
      shrinkLoop ((z : ℚ)) (valsOf sets) (sets.map (fun fs => fs.entries.length)) =
        sets.map (fun fs => fs.entries.length)) ∧
    join_fuzzy_sets sets (PyNum.int z) j =
      ((sets.zip (shrinkLoop ((z : ℚ)) (valsOf sets)
          (sets.map (fun fs => fs.entries.length)))).mapM
        (fun p => (copyFS p.1).bind (fun cp => Except.ok (cut_off_int cp p.2)))).bind
        (fun shrunk => (joinProdBranch shrunk 0 j).bind
          (fun upper => Except.ok (cut_off_int upper z.toNat))) := by
  have hzq : (1 : ℚ) ≤ (z : ℚ) := by exact_mod_cast hz
  refine ⟨?_, ?_, ?_, ?_, ?_, ?_⟩
  · rw [shrinkLoop_length]
    simp
  · intro i
    exact shrinkLoop_le _ _ _ i
  · intro h i hi
    exact shrinkLoop_ge_one _ _ _ (fun m hm => h m (by simpa using hm)) i (by simpa using hi)
  · exact shrinkLoop_gt _ _ _
  · exact shrinkLoop_noop _ _ _
  · unfold join_fuzzy_sets
    have htq : (PyNum.int z).toQ = (z : ℚ) := rfl
    rw [htq, if_neg (by push_neg; linarith), if_pos hzq]
    rfl

/-- Witness for `join_cardinality_mode` on the two sets
`A = {y -> 0.9, a -> 0.6}` and `B = {j -> 0.7, e -> 0.6}` with `C = 3`:
the shrunk counters stay `[2, 2]` (product 4 > 3) and the join equals
the top-3 cutoff of the full 4-element product. -/
theorem join_cardinality_mode_witness :
    (shrinkLoop ((3 : ℤ) : ℚ)
        (valsOf [⟨[([121], (9 : ℚ)/10), ([97], (6 : ℚ)/10)], 0⟩,
                 ⟨[([106], (7 : ℚ)/10), ([101], (6 : ℚ)/10)], 0⟩])
        ([⟨[([121], (9 : ℚ)/10), ([97], (6 : ℚ)/10)], 0⟩,
          (⟨[([106], (7 : ℚ)/10), ([101], (6 : ℚ)/10)], 0⟩ : FuzzySet (List Nat))].map
          (fun fs => fs.entries.length))).length = 2 ∧
    (((3 : ℤ) : ℚ) <
        (prodNat (shrinkLoop ((3 : ℤ) : ℚ)
          (valsOf [⟨[([121], (9 : ℚ)/10), ([97], (6 : ℚ)/10)], 0⟩,
                   ⟨[([106], (7 : ℚ)/10), ([101], (6 : ℚ)/10)], 0⟩])
          ([⟨[([121], (9 : ℚ)/10), ([97], (6 : ℚ)/10)], 0⟩,
            (⟨[([106], (7 : ℚ)/10), ([101], (6 : ℚ)/10)], 0⟩ : FuzzySet (List Nat))].map
            (fun fs => fs.entries.length))) : ℚ)) := by
  constructor
  · exact (join_cardinality_mode
      [⟨[([121], (9 : ℚ)/10), ([97], (6 : ℚ)/10)], 0⟩,
       ⟨[([106], (7 : ℚ)/10), ([101], (6 : ℚ)/10)], 0⟩] 3 [] (by decide)).1
  · exact (join_cardinality_mode
      [⟨[([121], (9 : ℚ)/10), ([97], (6 : ℚ)/10)], 0⟩,
       ⟨[([106], (7 : ℚ)/10), ([101], (6 : ℚ)/10)], 0⟩] 3 [] (by decide)).2.2.2.1
      (by with_unfolding_all decide)

/-- C4 counterexample: on `A = {y -> 0.9, a -> 0.6}`,
`B = {j -> 0.7, e -> 0.6}` with cutoff 3 the code keeps both sets at 2
members (size product 4 > 3, the shrink is undone) and returns 3
combinations, while the claimed algorithm (shrink until the product is
≤ 3) would shrink `A` to 1 member and return only 2 combinations. -/
theorem join_shrink_counterexample :
    (join_fuzzy_sets
        [⟨[([121], (9 : ℚ)/10), ([97], (6 : ℚ)/10)], 0⟩,
         ⟨[([106], (7 : ℚ)/10), ([101], (6 : ℚ)/10)], 0⟩]
        (PyNum.int 3) []).map (fun f => f.entries.length) = Except.ok 3 ∧
    (join_fuzzy_sets_claim
        [⟨[([121], (9 : ℚ)/10), ([97], (6 : ℚ)/10)], 0⟩,
         ⟨[([106], (7 : ℚ)/10), ([101], (6 : ℚ)/10)], 0⟩]
        3 []).map (fun f => f.entries.length) = Except.ok 2 ∧
    (3 : Nat) ≠ 2 := by
  refine ⟨by with_unfolding_all decide, by with_unfolding_all decide, by decide⟩

/-- Helper: `forceNat` is the identity. -/
theorem forceNat_eq (x : Nat) (a : α) : forceNat x a = a := by
  simp [forceNat]

/-- Helper: masking with `0xffffffff` is the identity below `2^32`. -/
theorem and_mask32 (x : Nat) (h : x < 2^32) : x &&& 0xffffffff = x := by
  have hm : (0xffffffff : Nat) = 2^32 - 1 := by norm_num
  refine Nat.eq_of_testBit_eq (fun j => ?_)
  rw [Nat.testBit_and, hm, Nat.testBit_two_pow_sub_one]
  by_cases hj : j < 32
  · simp [hj]
  · have hx : x.testBit j = false :=
      Nat.testBit_lt_two_pow (lt_of_lt_of_le h (Nat.pow_le_pow_right (by norm_num) (by omega)))
    simp [hj, hx]

/-- Helper: bits at or above `2^32` vanish for numbers below it. -/
theorem testBit_high (x j : Nat) (h : x < 2^32) (hj : 32 ≤ j) : x.testBit j = false :=
  Nat.testBit_lt_two_pow (lt_of_lt_of_le h (Nat.pow_le_pow_right (by norm_num) hj))

/-- Helper: one step of `inv_right_shift` extends bit agreement with the
preimage downward by `b` bits: the shifted-and-masked term cancels
because it only looks at bits `b` higher, where the current guess
already agrees. -/
theorem invRight_step (y b m g t : Nat)
    (hg : ∀ j, t ≤ j → g.testBit j = y.testBit j) :
    ∀ j, t - b ≤ j →
      ((y ^^^ ((y >>> b) &&& m)) ^^^ ((g >>> b) &&& m)).testBit j = y.testBit j := by
  intro j hj
  have hgb : g.testBit (b + j) = y.testBit (b + j) := hg (b + j) (by omega)
  simp only [Nat.testBit_xor, Nat.testBit_and, Nat.testBit_shiftRight, hgb]
  cases y.testBit j <;> cases y.testBit (b + j) <;> cases m.testBit j <;> rfl

/-- Helper: the `while i < 32` loop of `inv_right_shift` recovers the
tempering preimage. -/
theorem invRightLoop_eq (y b m : Nat) (_hy : y < 2^32) :
    ∀ (fuel i g : Nat), 32 ≤ i + fuel * b →
      (∀ j, 32 - i ≤ j → g.testBit j = y.testBit j) →
      invShiftLoop (fun g => (y ^^^ ((y >>> b) &&& m)) ^^^ ((g >>> b) &&& m)) b fuel i g
        = y := by
  intro fuel
  induction fuel with
  | zero =>
    intro i g hge hg
    exact Nat.eq_of_testBit_eq (fun j => hg j (by omega))
  | succ fu ih =>
    intro i g hge hg
    show invShiftLoop _ b (fu + 1) i g = y
    unfold invShiftLoop
    by_cases hi : i < 32
    · rw [if_pos hi]
      refine ih (i + b) _ (by
        have hh : (fu + 1) * b = fu * b + b := by ring
        omega) ?_
      intro j hj
      exact invRight_step y b m g (32 - i) hg j (by omega)
    · rw [if_neg hi]
      exact Nat.eq_of_testBit_eq (fun j => hg j (by omega))

/-- Helper: `inv_right_shift` inverts `y ^ ((y >> b) & m)` on 32-bit
words (`0 < b` as the Python assert requires). -/
theorem inv_right_shift_eq (y b m : Nat) (hb : 0 < b) (hy : y < 2^32) :
    inv_right_shift (y ^^^ ((y >>> b) &&& m)) b m = y := by
  unfold inv_right_shift
  refine invRightLoop_eq y b m hy 32 0 0 (by omega) ?_
  intro j hj
  rw [Nat.zero_testBit, testBit_high y j hy (by omega)]

/-- Helper: one step of `inv_left_shift` extends bit agreement upward by
`b` bits (high bits stay correct because the mask is a 32-bit word). -/
theorem invLeft_step (y b m g t : Nat) (hm : m < 2^32) (hy : y < 2^32)
    (hg : ∀ j, (j < t ∨ 32 ≤ j) → g.testBit j = y.testBit j) :
    ∀ j, (j < t + b ∨ 32 ≤ j) →
      ((y ^^^ ((y <<< b) &&& m)) ^^^ ((g <<< b) &&& m)).testBit j = y.testBit j := by
  intro j hj
  by_cases hj32 : 32 ≤ j
  · have hmb : m.testBit j = false := testBit_high m j hm hj32
    have hyb : y.testBit j = false := testBit_high y j hy hj32
    simp [Nat.testBit_xor, Nat.testBit_and, Nat.testBit_shiftLeft, hmb, hyb]
  · rcases hj with hj | hj
    · by_cases hjb : b ≤ j
      · have hgb : g.testBit (j - b) = y.testBit (j - b) := hg (j - b) (Or.inl (by omega))
        simp only [Nat.testBit_xor, Nat.testBit_and, Nat.testBit_shiftLeft, hgb,
          decide_eq_true hjb, Bool.true_and]
        cases y.testBit j <;> cases y.testBit (j - b) <;> cases m.testBit j <;> rfl
      · have hd : decide (b ≤ j) = false := by
          simp
          omega
        simp only [Nat.testBit_xor, Nat.testBit_and, Nat.testBit_shiftLeft, hd,
          Bool.false_and]
        cases y.testBit j <;> cases m.testBit j <;> rfl
    · exact absurd hj (by omega)

/-- Helper: the `while i < 32` loop of `inv_left_shift` recovers the
tempering preimage. -/
theorem invLeftLoop_eq (y b m : Nat) (hy : y < 2^32) (hm : m < 2^32) :
    ∀ (fuel i g : Nat), 32 ≤ i + fuel * b →
      (∀ j, (j < i ∨ 32 ≤ j) → g.testBit j = y.testBit j) →
      invShiftLoop (fun g => (y ^^^ ((y <<< b) &&& m)) ^^^ ((g <<< b) &&& m)) b fuel i g
        = y := by
  intro fuel
  induction fuel with
  | zero =>
    intro i g hge hg
    refine Nat.eq_of_testBit_eq (fun j => hg j ?_)
    by_cases hj : 32 ≤ j
    · exact Or.inr hj
    · exact Or.inl (by omega)
  | succ fu ih =>
    intro i g hge hg
    show invShiftLoop _ b (fu + 1) i g = y
    unfold invShiftLoop
    by_cases hi : i < 32
    · rw [if_pos hi]
      refine ih (i + b) _ (by
        have hh : (fu + 1) * b = fu * b + b := by ring
        omega) ?_
      intro j hj
      exact invLeft_step y b m g i hm hy hg j hj
    · rw [if_neg hi]
      refine Nat.eq_of_testBit_eq (fun j => hg j ?_)
      by_cases hj : 32 ≤ j
      · exact Or.inr hj
      · exact Or.inl (by omega)

/-- Helper: `inv_left_shift` inverts `y ^ ((y << b) & m)` on 32-bit
words, for a 32-bit mask. -/
theorem inv_left_shift_eq (y b m : Nat) (hb : 0 < b) (hy : y < 2^32) (hm : m < 2^32) :
    inv_left_shift (y ^^^ ((y <<< b) &&& m)) b m = y := by
  unfold inv_left_shift
  refine invLeftLoop_eq y b m hy hm 32 0 0 (by omega) ?_
  intro j hj
  rcases hj with hj | hj
  · exact absurd hj (by omega)
  · rw [Nat.zero_testBit, testBit_high y j hy hj]

/-- Helper: tempering keeps words below `2^32`. -/
theorem temper_lt (y : Nat) (hy : y < 2^32) : temper y < 2^32 := by
  have hb1 : y ^^^ ((y >>> 11) &&& 0xffffffff) < 2^32 :=
    Nat.xor_lt_two_pow hy (lt_of_le_of_lt Nat.and_le_right (by norm_num))
  have hb2 : (y ^^^ ((y >>> 11) &&& 0xffffffff)) ^^^
      (((y ^^^ ((y >>> 11) &&& 0xffffffff)) <<< 7) &&& 0x9d2c5680) < 2^32 :=
    Nat.xor_lt_two_pow hb1 (lt_of_le_of_lt Nat.and_le_right (by norm_num))
  set y1 := y ^^^ ((y >>> 11) &&& 0xffffffff) with hy1
  set y2 := y1 ^^^ ((y1 <<< 7) &&& 0x9d2c5680) with hy2
  have hb3 : y2 ^^^ ((y2 <<< 15) &&& 0xefc60000) < 2^32 :=
    Nat.xor_lt_two_pow hb2 (lt_of_le_of_lt Nat.and_le_right (by norm_num))
  set y3 := y2 ^^^ ((y2 <<< 15) &&& 0xefc60000) with hy3
  have h4 : y3 >>> 18 < 2^32 := by
    rw [Nat.shiftRight_eq_div_pow]
    exact lt_of_le_of_lt (Nat.div_le_self _ _) hb3
  show y3 ^^^ (y3 >>> 18) < 2^32
  exact Nat.xor_lt_two_pow hb3 h4

/-- Helper: the four inverse steps of `clone_mt19937` undo the tempering
transform on every 32-bit word. -/
theorem untemper_temper (y : Nat) (hy : y < 2^32) : untemper (temper y) = y := by
  have hb1 : y ^^^ ((y >>> 11) &&& 0xffffffff) < 2^32 :=
    Nat.xor_lt_two_pow hy (lt_of_le_of_lt Nat.and_le_right (by norm_num))
  have hb2 : (y ^^^ ((y >>> 11) &&& 0xffffffff)) ^^^
      (((y ^^^ ((y >>> 11) &&& 0xffffffff)) <<< 7) &&& 0x9d2c5680) < 2^32 :=
    Nat.xor_lt_two_pow hb1 (lt_of_le_of_lt Nat.and_le_right (by norm_num))
  set y1 := y ^^^ ((y >>> 11) &&& 0xffffffff) with hy1
  set y2 := y1 ^^^ ((y1 <<< 7) &&& 0x9d2c5680) with hy2
  set y3 := y2 ^^^ ((y2 <<< 15) &&& 0xefc60000) with hy3
  have hb3 : y3 < 2^32 :=
    Nat.xor_lt_two_pow hb2 (lt_of_le_of_lt Nat.and_le_right (by norm_num))
  have hsh : y3 >>> 18 < 2^32 := by
    rw [Nat.shiftRight_eq_div_pow]
    exact lt_of_le_of_lt (Nat.div_le_self _ _) hb3
  have hmask : (y3 >>> 18) &&& 0xffffffff = y3 >>> 18 := and_mask32 _ hsh
  have ht : temper y = y3 ^^^ ((y3 >>> 18) &&& 0xffffffff) := by
    rw [hmask]
    rfl
  unfold untemper
  rw [ht, inv_right_shift_eq y3 18 0xffffffff (by norm_num) hb3,
    hy3, inv_left_shift_eq y2 15 0xefc60000 (by norm_num) hb2 (by norm_num),
    hy2, inv_left_shift_eq y1 7 0x9d2c5680 (by norm_num) hb1 (by norm_num),
    hy1, inv_right_shift_eq y 11 0xffffffff (by norm_num) hy]

/-- Helper: the packing base is `2^32`. -/
theorem B32_eq : B32 = 2 ^ 32 := by norm_num [B32]

/-- Helper: every stored digit is a 32-bit word. -/
theorem readW_lt (s i : Nat) : readW s i < B32 := Nat.mod_lt _ (by norm_num [B32])

/-- Helper: adding a fresh word at digit `i` stays below `B32 ^ (i+1)`. -/
theorem succ_digit_bound (a b i : Nat) (ha : a < B32 ^ i) (hb : b < B32) :
    a + b * B32 ^ i < B32 ^ (i + 1) := by
  have hB : 0 < B32 := by norm_num [B32]
  have h2 : b * B32 ^ i ≤ (B32 - 1) * B32 ^ i := Nat.mul_le_mul_right _ (by omega)
  have he : B32 ^ i + (B32 - 1) * B32 ^ i = B32 ^ (i + 1) := by
    have h41 : 1 + (B32 - 1) = B32 := by omega
    calc B32 ^ i + (B32 - 1) * B32 ^ i = (1 + (B32 - 1)) * B32 ^ i := by ring
      _ = B32 * B32 ^ i := by rw [h41]
      _ = B32 ^ (i + 1) := (pow_succ' B32 i).symm
  omega

/-- Helper: writing a 32-bit word keeps the state below `B32 ^ 624`. -/
theorem writeW_lt (s i v : Nat) (hs : s < B32 ^ 624) (hi : i < 624) (hv : v < B32) :
    writeW s i v < B32 ^ 624 := by
  have hB : 0 < B32 := by norm_num [B32]
  have h1 : s % B32 ^ i < B32 ^ i := Nat.mod_lt _ (pow_pos hB i)
  have h3 : s % B32 ^ i + v * B32 ^ i < B32 ^ (i + 1) := succ_digit_bound _ _ _ h1 hv
  have h4 : s / B32 ^ (i + 1) < B32 ^ (623 - i) := by
    rw [Nat.div_lt_iff_lt_mul (pow_pos hB _)]
    calc s < B32 ^ 624 := hs
      _ = B32 ^ (623 - i) * B32 ^ (i + 1) := by rw [← pow_add]; congr 1; omega
  have h5 : (1 + s / B32 ^ (i + 1)) * B32 ^ (i + 1) ≤ B32 ^ (623 - i) * B32 ^ (i + 1) :=
    Nat.mul_le_mul_right _ (by omega)
  have h6 : B32 ^ (623 - i) * B32 ^ (i + 1) = B32 ^ 624 := by rw [← pow_add]; congr 1; omega
  have h7 : writeW s i v = s % B32 ^ i + v * B32 ^ i + s / B32 ^ (i + 1) * B32 ^ (i + 1) := rfl
  have h8 : (1 + s / B32 ^ (i + 1)) * B32 ^ (i + 1)
      = B32 ^ (i + 1) + s / B32 ^ (i + 1) * B32 ^ (i + 1) := by ring
  omega

/-- Helper: the seeding loop only ever appends 32-bit digits. -/
theorem seedLoop_lt : ∀ (k MT prev i : Nat), MT < B32 ^ i → seedLoop MT prev i k < B32 ^ (i + k) := by
  intro k
  induction k with
  | zero =>
    intro MT prev i h
    simpa [seedLoop] using h
  | succ kk ih =>
    intro MT prev i h
    simp only [seedLoop, forceNat_eq]
    have hn : ((1812433253 * (prev ^^^ (prev >>> 30)) + i) &&& W32) < B32 := by
      have h1 : ((1812433253 * (prev ^^^ (prev >>> 30)) + i) &&& W32) ≤ W32 := Nat.and_le_right
      have h2 : W32 < B32 := by norm_num [W32, B32]
      omega
    have hm : MT + ((1812433253 * (prev ^^^ (prev >>> 30)) + i) &&& W32) * B32 ^ i
        < B32 ^ (i + 1) := succ_digit_bound _ _ _ h hn
    have hrec := ih _ ((1812433253 * (prev ^^^ (prev >>> 30)) + i) &&& W32) (i + 1) hm
    have he2 : i + 1 + kk = i + (kk + 1) := by omega
    rw [← he2]
    exact hrec

/-- Helper: the seeded state is a valid 624-digit number. -/
theorem seedInit_lt (seed : Nat) : seedInit seed < B32 ^ 624 := by
  have h0 : seed % B32 < B32 ^ 1 := by
    rw [pow_one]
    exact Nat.mod_lt _ (by norm_num [B32])
  have h := seedLoop_lt 623 (seed % B32) seed 1 h0
  show seedLoop (seed % B32) seed 1 623 < B32 ^ 624
  exact h

/-- Helper: one twist assignment keeps the state a valid 624-digit
number. -/
theorem twistStep_lt (s i : Nat) (hs : s < B32 ^ 624) (hi : i < 624) :
    twistStep s i < B32 ^ 624 := by
  simp only [twistStep]
  set x := (readW s i &&& upperMask) + (readW s ((i + 1) % 624) &&& lowerMask) with hx
  have hxlt : x < 2 ^ 32 := by
    have h1 : readW s i &&& upperMask ≤ upperMask := Nat.and_le_right
    have h2 : readW s ((i + 1) % 624) &&& lowerMask ≤ lowerMask := Nat.and_le_right
    have h3 : upperMask = 2147483648 := rfl
    have h4 : lowerMask = 2147483647 := rfl
    have h5 : (2:Nat) ^ 32 = 4294967296 := by norm_num
    omega
  have hxA : x >>> 1 < 2 ^ 32 := by
    rw [Nat.shiftRight_eq_div_pow]
    exact lt_of_le_of_lt (Nat.div_le_self _ _) hxlt
  have hxA2 : (if x % 2 ≠ 0 then (x >>> 1) ^^^ 0x9908b0df else x >>> 1) < 2 ^ 32 := by
    split
    · exact Nat.xor_lt_two_pow hxA (by norm_num)
    · exact hxA
  apply writeW_lt _ _ _ hs hi
  rw [B32_eq]
  have hr : readW s ((i + 397) % 624) < 2 ^ 32 := by
    have := readW_lt s ((i + 397) % 624)
    rwa [B32_eq] at this
  exact Nat.xor_lt_two_pow hr hxA2

/-- Helper: the twist loop preserves the state bound. -/
theorem twistAux_lt : ∀ (fuel i s : Nat), i + fuel ≤ 624 → s < B32 ^ 624 →
    twistAux s i fuel < B32 ^ 624 := by
  intro fuel
  induction fuel with
  | zero => intro i s _ hs; exact hs
  | succ fu ih =>
    intro i s h hs
    simp only [twistAux, forceNat_eq]
    exact ih (i + 1) _ (by omega) (twistStep_lt s i hs (by omega))

/-- Helper: `twist` preserves the state bound. -/
theorem twist_lt (s : Nat) (hs : s < B32 ^ 624) : twist s < B32 ^ 624 :=
  twistAux_lt 624 0 s (by omega) hs

/-- Helper: one step of word packing. -/
theorem packAux_cons (w : Nat) (ws : List Nat) (i acc : Nat) :
    packAux (w :: ws) i acc = packAux ws (i + 1) (acc + w * B32 ^ i) := by
  simp only [packAux, forceNat_eq]

/-- Helper: packing `k` consecutive digits of `s` starting at digit `i`
rebuilds the corresponding slice of `s`. -/
theorem packAux_eq : ∀ (k i acc s : Nat),
    packAux ((List.range' i k).map (fun n => readW s n)) i acc
      = acc + s / B32 ^ i % B32 ^ k * B32 ^ i := by
  intro k
  induction k with
  | zero =>
    intro i acc s
    simp [packAux, Nat.mod_one]
  | succ kk ih =>
    intro i acc s
    rw [List.range'_succ, List.map_cons, packAux_cons, ih (i + 1) _ s]
    have e1 : s / B32 ^ (i + 1) = s / B32 ^ i / B32 := by
      rw [Nat.div_div_eq_div_mul, ← pow_succ]
    have e2 : s / B32 ^ i % B32 ^ (kk + 1)
        = s / B32 ^ i % B32 + B32 * (s / B32 ^ i / B32 % B32 ^ kk) := by
      rw [pow_succ']
      exact Nat.mod_mul
    have e3 : readW s i = s / B32 ^ i % B32 := rfl
    rw [e1, e2, e3, pow_succ]
    ring

/-- Helper: packing the 624 digits of a valid state is the identity. -/
theorem packWords_eq (s : Nat) (h : s < B32 ^ 624) :
    packWords ((List.range' 0 624).map (fun n => readW s n)) = s := by
  unfold packWords
  rw [packAux_eq 624 0 0 s]
  simp [Nat.mod_eq_of_lt h]

/-- Helper: extraction below index 624 tempers the current word and
advances the index. -/
theorem extractOne_lt (M idx : Nat) (h : idx < 624) :
    extractOne ⟨M, idx⟩ = (temper (readW M idx) &&& W32, ⟨M, idx + 1⟩) := by
  simp only [extractOne]
  rw [if_neg (by omega : ¬ (624:Nat) ≤ idx)]

/-- Helper: extraction at index 624 or beyond twists first. -/
theorem extractOne_ge (M idx : Nat) (h : 624 ≤ idx) :
    extractOne ⟨M, idx⟩ = (temper (readW (twist M) 0) &&& W32, ⟨twist M, 1⟩) := by
  simp only [extractOne]
  rw [if_pos h]

/-- Helper: unfolding one draw of `extractN`. -/
theorem extractN_succ (s : MTState) (k : Nat) :
    extractN s (k + 1) =
      ((extractOne s).1 :: (extractN (extractOne s).2 k).1,
        (extractN (extractOne s).2 k).2) := by
  simp only [extractN, forceNat_eq]

/-- Helper: while the index stays below 624 the generator tempers the
state words in order without twisting. -/
theorem extractN_stay : ∀ (k idx M : Nat), idx + k ≤ 624 →
    extractN ⟨M, idx⟩ k
      = ((List.range' idx k).map (fun n => temper (readW M n) &&& W32), ⟨M, idx + k⟩) := by
  intro k
  induction k with
  | zero =>
    intro idx M _
    simp [extractN]
  | succ kk ih =>
    intro idx M h
    rw [extractN_succ, extractOne_lt M idx (by omega), ih (idx + 1) M (by omega)]
    have h2 : List.range' idx (kk + 1) = idx :: List.range' (idx + 1) kk :=
      List.range'_succ idx kk 1
    rw [h2, List.map_cons]
    have he : idx + 1 + kk = idx + (kk + 1) := by omega
    rw [he]

/-- Helper: the first 624 outputs of a fresh generator are the tempered
words of the first twisted state, which they leave behind with
`index = 624`. -/
theorem extractN_first (seed : Nat) :
    extractN (mtInit seed) 624
      = ((List.range' 0 624).map
            (fun n => temper (readW (twist (seedInit seed)) n) &&& W32),
          ⟨twist (seedInit seed), 624⟩) := by
  have h1 : extractN (mtInit seed) 624 = extractN ⟨seedInit seed, 625⟩ (623 + 1) := rfl
  rw [h1, extractN_succ, extractOne_ge (seedInit seed) 625 (by omega),
    extractN_stay 623 1 (twist (seedInit seed)) (by omega)]
  have h2 : List.range' 0 624 = 0 :: List.range' 1 623 := rfl
  rw [h2, List.map_cons]

/-- C2 (amended): for every seed, feeding `clone_mt19937` exactly the
first 624 outputs of a fresh MT19937 generator succeeds and returns a
clone whose state and index equal the original generator's state after
those 624 outputs, so the clone's entire subsequent output stream equals
the original's.  (With more than 624 supplied outputs the clone still
rebuilds its state from the *first* 624 of them, so it replays the extra
supplied outputs instead of continuing after them; see the
counterexample.) -/
theorem clone_mt19937_reproduces (seed : Nat) :
    clone_mt19937 (extractN (mtInit seed) 624).1
      = Except.ok (extractN (mtInit seed) 624).2 := by
  rw [extractN_first seed]
  dsimp only
  have hg1 : twist (seedInit seed) < B32 ^ 624 := twist_lt _ (seedInit_lt seed)
  unfold clone_mt19937
  rw [if_neg (by simp : ¬ ((List.range' 0 624).map
      (fun n => temper (readW (twist (seedInit seed)) n) &&& W32)).length < 624)]
  have hmap : ((List.range' 0 624).map
        (fun n => temper (readW (twist (seedInit seed)) n) &&& W32)).map untemper
      = (List.range' 0 624).map (fun n => readW (twist (seedInit seed)) n) := by
    rw [List.map_map]
    refine List.map_congr_left ?_
    intro i _
    show untemper (temper (readW (twist (seedInit seed)) i) &&& W32)
        = readW (twist (seedInit seed)) i
    have hr : readW (twist (seedInit seed)) i < 2 ^ 32 := by
      have := readW_lt (twist (seedInit seed)) i
      rwa [B32_eq] at this
    have h1 : temper (readW (twist (seedInit seed)) i) &&& W32
        = temper (readW (twist (seedInit seed)) i) :=
      and_mask32 _ (temper_lt _ hr)
    rw [h1, untemper_temper _ hr]
  rw [hmap, List.take_of_length_le (by simp), packWords_eq _ hg1]

/-- C5 counterexample: on the set built by inserting key 1 then key 0,
both with weight 1, `most_likely()` returns key 1 (insertion order), not
key 0 as the claimed natural-key-ordering tie-break would require. -/
theorem most_likely_tiebreak_counterexample :
    most_likely_none (⟨[(1, (1 : ℚ)), (0, 1)], 0⟩ : FuzzySet Nat) = Except.ok 1 ∧
    Except.ok 1 ≠ (Except.ok 0 : Except String Nat) := by
  constructor
  · with_unfolding_all decide
  · decide

/-- Helper: chunking the empty string yields no blocks, for any fuel. -/
theorem blocksOfAux_nil (bs : Nat) : ∀ f, blocksOfAux bs f [] = [] := by
  intro f
  cases f with
  | zero => rfl
  | succ g => simp [blocksOfAux]

/-- Helper: any fuel at least the list length gives the same chunking. -/
theorem blocksOfAux_fuel (bs : Nat) (hbs : 0 < bs) :
    ∀ f₁ f₂ l, l.length ≤ f₁ → l.length ≤ f₂ →
      blocksOfAux bs f₁ l = blocksOfAux bs f₂ l := by
  intro f₁
  induction f₁ with
  | zero =>
    intro f₂ l h1 _
    have hl : l = [] := by
      cases l with
      | nil => rfl
      | cons a t => simp at h1
    rw [hl, blocksOfAux_nil, blocksOfAux_nil]
  | succ g ih =>
    intro f₂ l h1 h2
    cases hl : l with
    | nil => rw [blocksOfAux_nil, blocksOfAux_nil]
    | cons a t =>
      rw [← hl]
      have hne : l ≠ [] := by rw [hl]; simp
      have hlen : 1 ≤ l.length := by rw [hl]; simp
      cases f₂ with
      | zero => omega
      | succ g2 =>
        show blocksOfAux bs (g + 1) l = blocksOfAux bs (g2 + 1) l
        simp only [blocksOfAux, if_neg hne]
        congr 1
        apply ih
        · have := l.length_drop bs
          omega
        · have := l.length_drop bs
          omega

/-- Helper: splitting a join of `bs`-sized blocks recovers the blocks. -/
theorem blocksOf_join (bs : Nat) (hbs : 0 < bs) :
    ∀ bls : List (List Nat), (∀ b ∈ bls, b.length = bs) →
      blocksOf bs (joinBlocks bls) = bls := by
  have key : ∀ bls : List (List Nat), ∀ f, (joinBlocks bls).length ≤ f →
      (∀ b ∈ bls, b.length = bs) → blocksOfAux bs f (joinBlocks bls) = bls := by
    intro bls
    induction bls with
    | nil => intro f _ _; simp [joinBlocks]; exact blocksOfAux_nil bs f
    | cons b t ih =>
      intro f hf hlen
      have hb : b.length = bs := hlen b (by simp)
      have hbne : b ≠ [] := by
        intro hc
        rw [hc] at hb
        simp at hb
        omega
      have hjoin : joinBlocks (b :: t) = b ++ joinBlocks t := by
        simp [joinBlocks]
      have hne : joinBlocks (b :: t) ≠ [] := by
        rw [hjoin]
        cases b with
        | nil => exact absurd rfl hbne
        | cons y s => simp
      have hlenj : (joinBlocks (b :: t)).length = bs + (joinBlocks t).length := by
        rw [hjoin]
        simp [hb]
      cases f with
      | zero => omega
      | succ g =>
        simp only [blocksOfAux, if_neg hne]
        rw [hjoin, List.take_left' hb, List.drop_left' hb]
        congr 1
        apply ih
        · omega
        · intro b2 hb2; exact hlen b2 (by simp [hb2])
  intro bls hlen
  exact key bls (joinBlocks bls).length (le_refl _) hlen

/-- Helper: joining the `bs`-chunks of a string recovers the string. -/
theorem join_blocksOf (bs : Nat) (hbs : 0 < bs) :
    ∀ n l, l.length ≤ n → joinBlocks (blocksOf bs l) = l := by
  intro n
  induction n with
  | zero =>
    intro l h
    have : l = [] := by cases l with | nil => rfl | cons a t => simp at h
    rw [this]
    rfl
  | succ m ih =>
    intro l h
    cases hl : l with
    | nil => rfl
    | cons a t =>
      rw [← hl]
      have hne : l ≠ [] := by rw [hl]; simp
      have h1 : 1 ≤ l.length := by rw [hl]; simp
      unfold blocksOf
      have hlen : l.length = (l.length - 1) + 1 := by omega
      rw [hlen]
      simp only [blocksOfAux, if_neg hne]
      have hdrop : (l.drop bs).length ≤ l.length - 1 := by
        have := l.length_drop bs
        omega
      rw [blocksOfAux_fuel bs hbs _ (l.drop bs).length _ hdrop (le_refl _)]
      have : joinBlocks (l.take bs :: blocksOfAux bs (l.drop bs).length (l.drop bs))
          = l.take bs ++ joinBlocks (blocksOf bs (l.drop bs)) := by
        simp [joinBlocks, blocksOf]
      rw [this, ih (l.drop bs) (by omega)]
      exact l.take_append_drop bs

/-- Helper: chunking a string whose length is a multiple of `bs` yields blocks of length exactly `bs`. -/
theorem blocksOf_length_eq (bs : Nat) (hbs : 0 < bs) :
    ∀ K l, l.length = K * bs → ∀ p, p ∈ blocksOf bs l → p.length = bs := by
  intro K
  induction K with
  | zero =>
    intro l hl p hp
    have : l = [] := by
      cases l with | nil => rfl | cons a t => simp at hl
    rw [this] at hp
    simp [blocksOf, blocksOfAux_nil] at hp
  | succ J ih =>
    intro l hl p hp
    have hlen : l.length = J * bs + bs := by rw [hl]; ring
    have hne : l ≠ [] := by
      intro hc
      rw [hc] at hlen
      simp at hlen
      omega
    unfold blocksOf at hp
    have h1 : l.length = (l.length - 1) + 1 := by omega
    rw [h1] at hp
    simp only [blocksOfAux, if_neg hne] at hp
    rcases List.mem_cons.mp hp with hp1 | hp2
    · rw [hp1]
      simp
      omega
    · have hd : (l.drop bs).length = J * bs := by
        simp
        omega
      have hfuel : (l.drop bs).length ≤ l.length - 1 := by
        simp
        omega
      rw [blocksOfAux_fuel bs hbs _ (l.drop bs).length _ hfuel (le_refl _)] at hp2
      exact ih (l.drop bs) hd p hp2

/-- Helper: every chunk is a contiguous slice of the original string. -/
theorem blocksOf_offset (bs : Nat) (hbs : 0 < bs) :
    ∀ n l p, l.length ≤ n → p ∈ blocksOf bs l → ∃ off, p = (l.drop off).take bs := by
  intro n
  induction n with
  | zero =>
    intro l p h hp
    have : l = [] := by cases l with | nil => rfl | cons a t => simp at h
    rw [this] at hp
    simp [blocksOf, blocksOfAux_nil] at hp
  | succ m ih =>
    intro l p h hp
    by_cases hne : l = []
    · rw [hne] at hp
      simp [blocksOf, blocksOfAux_nil] at hp
    · have h1 : l.length = (l.length - 1) + 1 := by
        have : l.length ≠ 0 := by simpa using hne
        omega
      unfold blocksOf at hp
      rw [h1] at hp
      simp only [blocksOfAux, if_neg hne] at hp
      rcases List.mem_cons.mp hp with hp1 | hp2
      · exact ⟨0, by simpa using hp1⟩
      · have hfuel : (l.drop bs).length ≤ l.length - 1 := by
          have := l.length_drop bs
          have : 1 ≤ l.length := by
            cases l with | nil => exact absurd rfl hne | cons a t => simp
          omega
        rw [blocksOfAux_fuel bs hbs _ (l.drop bs).length _ hfuel (le_refl _)] at hp2
        obtain ⟨off, hoff⟩ := ih (l.drop bs) p (by have := l.length_drop bs; omega) hp2
        refine ⟨bs + off, ?_⟩
        rw [hoff, List.drop_drop]

/-- Helper: peeling the first decrypted block. -/
theorem cbcDecBlocks_cons₂ (D : List Nat → List Nat) (x z : List Nat) (rest : List (List Nat)) :
    cbcDecBlocks D (x :: z :: rest) = lxor (D z) x :: cbcDecBlocks D (z :: rest) := rfl

/-- Helper: the last decrypted block is `D` of the last ciphertext block XOR the penultimate block. -/
theorem cbcDecBlocks_last (D : List Nat → List Nat) (a b : List Nat) :
    ∀ front, cbcDecBlocks D (front ++ [a, b])
      = cbcDecBlocks D (front ++ [a]) ++ [lxor (D b) a] := by
  intro front
  induction front with
  | nil => rfl
  | cons x t ih =>
    cases t with
    | nil => rfl
    | cons z t2 =>
      simp only [List.cons_append]
      rw [cbcDecBlocks_cons₂, cbcDecBlocks_cons₂]
      simp only [List.cons_append]
      congr 1

/-- Helper: CBC decryption of `bs`-sized blocks yields `bs`-sized blocks. -/
theorem cbcDecBlocks_lengths (D : List Nat → List Nat) (bs : Nat)
    (hD : ∀ c, c.length = bs → (D c).length = bs) :
    ∀ bls : List (List Nat), (∀ b ∈ bls, b.length = bs) →
      ∀ q ∈ cbcDecBlocks D bls, q.length = bs := by
  intro bls
  induction bls with
  | nil => intro _ q hq; simp [cbcDecBlocks] at hq
  | cons x t ih =>
    intro hlen q hq
    cases t with
    | nil => simp [cbcDecBlocks] at hq
    | cons z t2 =>
      rw [cbcDecBlocks_cons₂] at hq
      rcases List.mem_cons.mp hq with hq1 | hq2
      · rw [hq1]
        unfold lxor
        rw [List.length_zipWith, hD z (hlen z (by simp)), hlen x (by simp)]
        simp
      · exact ih (by intro b hb; exact hlen b (by simp [hb])) q hq2

/-- Helper: `unpad` accepts a text ending in `m` bytes of value `m` for `1 ≤ m ≤ 64`. -/
theorem unpad_ok_pad (A C : List Nat) (m : Nat) (h1 : 1 ≤ m) (h64 : m ≤ 64) :
    unpad (A ++ (C ++ List.replicate m m)) schemePkcs7
      = Except.ok (pySliceDropLast (A ++ (C ++ List.replicate m m)) m) := by
  have hlast : (A ++ (C ++ List.replicate m m)).getLast? = some m := by
    rw [List.getLast?_append, List.getLast?_append, getLast?_replicate_of_ne m m (by omega)]
    rfl
  have hslice : pySliceLast (A ++ (C ++ List.replicate m m)) m = List.replicate m m := by
    unfold pySliceLast
    rw [if_neg (by omega)]
    have hlen : (A ++ (C ++ List.replicate m m)).length - m = (A ++ C).length := by
      simp
      omega
    rw [hlen, ← List.append_assoc, List.drop_left]
  unfold unpad
  rw [if_pos rfl, hlast]
  show (if 64 < m ∨ pySliceLast (A ++ (C ++ List.replicate m m)) m ≠ List.replicate m m
      then Except.error ("Bad padding")
      else Except.ok (pySliceDropLast (A ++ (C ++ List.replicate m m)) m))
    = Except.ok (pySliceDropLast (A ++ (C ++ List.replicate m m)) m)
  apply if_neg
  rw [hslice]
  intro hcon
  rcases hcon with hx | hx
  · omega
  · exact hx rfl

/-- Helper: `unpad` rejects a text whose last byte exceeds 64. -/
theorem unpad_err_big (s : List Nat) (m : Nat) (hlast : s.getLast? = some m) (h : 64 < m) :
    unpad s schemePkcs7 = Except.error ("Bad padding") := by
  unfold unpad
  rw [if_pos rfl, hlast]
  show (if 64 < m ∨ pySliceLast s m ≠ List.replicate m m then Except.error ("Bad padding")
      else Except.ok (pySliceDropLast s m)) = Except.error ("Bad padding")
  rw [if_pos (Or.inl h)]

/-- Helper: `unpad` rejects a text whose last byte is 0. -/
theorem unpad_err_zero (s : List Nat) (hne : s ≠ []) (hlast : s.getLast? = some 0) :
    unpad s schemePkcs7 = Except.error ("Bad padding") := by
  unfold unpad
  rw [if_pos rfl, hlast]
  show (if 64 < 0 ∨ pySliceLast s 0 ≠ List.replicate 0 0 then Except.error ("Bad padding")
      else Except.ok (pySliceDropLast s 0)) = Except.error ("Bad padding")
  refine if_pos (Or.inr ?_)
  unfold pySliceLast
  rw [if_pos rfl]
  simpa using hne

/-- Helper: `unpad` rejects when the second-from-last byte differs from a last byte of 2 or more. -/
theorem unpad_err_second (s : List Nat) (m : Nat) (hlast : s.getLast? = some m)
    (h2 : 2 ≤ m) (hlen : 2 ≤ s.length) (hne : s.getD (s.length - 2) 0 ≠ m) :
    unpad s schemePkcs7 = Except.error ("Bad padding") := by
  unfold unpad
  rw [if_pos rfl, hlast]
  show (if 64 < m ∨ pySliceLast s m ≠ List.replicate m m then Except.error ("Bad padding")
      else Except.ok (pySliceDropLast s m)) = Except.error ("Bad padding")
  by_cases h64 : 64 < m
  · rw [if_pos (Or.inl h64)]
  · refine if_pos (Or.inr ?_)
    intro heq
    by_cases hm : m ≤ s.length
    · have hget : (pySliceLast s m).getD (m - 2) 0 = s.getD (s.length - 2) 0 := by
        unfold pySliceLast
        rw [if_neg (by omega)]
        rw [List.getD_eq_getElem?_getD, List.getD_eq_getElem?_getD, List.getElem?_drop]
        have harith : s.length - m + (m - 2) = s.length - 2 := by omega
        rw [harith]
      rw [heq] at hget
      have hrep : (List.replicate m m).getD (m - 2) 0 = m := by
        rw [List.getD_eq_getElem?_getD]
        have : (List.replicate m m)[m - 2]? = some m := by
          simp [List.getElem?_replicate]
          omega
        rw [this]
        rfl
      exact hne (by rw [← hget, hrep])
    · have hlens : (pySliceLast s m).length = s.length := by
        unfold pySliceLast
        rw [if_neg (by omega)]
        rw [List.length_drop]
        omega
      rw [heq] at hlens
      rw [List.length_replicate] at hlens
      omega

/-- Helper: `unpad` rejects when the byte opening the claimed pad run differs from the pad value. -/
theorem unpad_err_head (A C : List Nat) (q m : Nat) (h2 : 2 ≤ m) (hq : q ≠ m) :
    unpad (A ++ (C ++ (q :: List.replicate (m - 1) m))) schemePkcs7
      = Except.error ("Bad padding") := by
  have hlast : (A ++ (C ++ (q :: List.replicate (m - 1) m))).getLast? = some m := by
    rw [List.getLast?_append, List.getLast?_append]
    have hQ : (q :: List.replicate (m - 1) m).getLast? = some m := by
      have hQR : q :: List.replicate (m - 1) m = [q] ++ List.replicate (m - 1) m := rfl
      rw [hQR, List.getLast?_append, getLast?_replicate_of_ne (m - 1) m (by omega)]
      rfl
    rw [hQ]
    rfl
  unfold unpad
  rw [if_pos rfl, hlast]
  show (if 64 < m ∨ pySliceLast (A ++ (C ++ (q :: List.replicate (m - 1) m))) m
        ≠ List.replicate m m
      then Except.error ("Bad padding")
      else Except.ok (pySliceDropLast (A ++ (C ++ (q :: List.replicate (m - 1) m))) m))
    = Except.error ("Bad padding")
  refine if_pos (Or.inr ?_)
  have hslice : pySliceLast (A ++ (C ++ (q :: List.replicate (m - 1) m))) m
      = q :: List.replicate (m - 1) m := by
    unfold pySliceLast
    rw [if_neg (by omega)]
    have hlen : (A ++ (C ++ (q :: List.replicate (m - 1) m))).length - m = (A ++ C).length := by
      simp
      omega
    rw [hlen, ← List.append_assoc, List.drop_left]
  rw [hslice]
  have hrep : List.replicate m m = m :: List.replicate (m - 1) m := by
    obtain ⟨k, hk⟩ : ∃ k, m = k + 1 := ⟨m - 1, by omega⟩
    subst hk
    simp [List.replicate_succ]
  rw [hrep]
  intro hcon
  injection hcon with hh _
  exact hq hh

/-- Helper: XORing a list with its image under `c ^^^ ·` gives the constant list `c`. -/
theorem xor_absorb_list (c : Nat) : ∀ L : List Nat,
    List.zipWith (· ^^^ ·) L (L.map (fun t => c ^^^ t)) = List.replicate L.length c := by
  intro L
  induction L with
  | nil => rfl
  | cons t ts ih =>
    simp only [List.map_cons, List.zipWith_cons_cons, ih, List.length_cons,
      List.replicate_succ]
    congr 1
    rw [Nat.xor_comm c t, ← Nat.xor_assoc, Nat.xor_self, Nat.zero_xor]

/-- Helper: pointwise read of a pointwise XOR. -/
theorem getD_lxor (a b : List Nat) (j : Nat) (ha : j < a.length) (hb : j < b.length) :
    (lxor a b).getD j 0 = a.getD j 0 ^^^ b.getD j 0 := by
  unfold lxor
  have h1 : j < (List.zipWith (· ^^^ ·) a b).length := by
    rw [List.length_zipWith]
    omega
  rw [List.getD_eq_getElem?_getD, List.getD_eq_getElem?_getD, List.getD_eq_getElem?_getD,
    List.getElem?_eq_getElem h1, List.getElem?_eq_getElem ha, List.getElem?_eq_getElem hb]
  show (List.zipWith (· ^^^ ·) a b)[j] = a[j] ^^^ b[j]
  exact List.getElem_zipWith

/-- Helper: reading a prefix below its cut. -/
theorem getD_take_lt (l : List Nat) (n j : Nat) (h : j < n) :
    (l.take n).getD j 0 = l.getD j 0 := by
  rw [List.getD_eq_getElem?_getD, List.getD_eq_getElem?_getD, List.getElem?_take_of_lt h]

/-- Helper: `getD` from a successful indexed read. -/
theorem getD_of_getElem? (l : List Nat) (j v : Nat) (h : l[j]? = some v) :
    l.getD j 0 = v := by
  rw [List.getD_eq_getElem?_getD, h]
  rfl

/-- Helper: `find?` returns the unique element satisfying the predicate. -/
theorem find?_of_unique : ∀ (l : List Nat) (p : Nat → Bool) (a : Nat), a ∈ l → p a = true →
    (∀ b, ¬ b = a → p b = false) → l.find? p = some a := by
  intro l p a
  induction l with
  | nil => intro h _ _; simp at h
  | cons x t ih =>
    intro hmem hpa hother
    by_cases hxa : x = a
    · subst hxa
      rw [List.find?_cons_of_pos _ hpa]
    · have hpx : p x = false := hother x hxa
      rw [List.find?_cons_of_neg _ (by simp [hpx])]
      have hat : a ∈ t := by
        rcases List.mem_cons.mp hmem with h1 | h1
        · exact absurd h1.symm hxa
        · exact h1
      exact ih hat hpa hother

/-- Helper: `find?` misses when the predicate never holds. -/
theorem find?_of_never (l : List Nat) (p : Nat → Bool) (h : ∀ b ∈ l, p b = false) :
    l.find? p = none := by
  rw [List.find?_eq_none]
  intro a ha
  simp [h a ha]

/-- Helper: byte-level XOR stays below 256. -/
theorem xor_lt_256 (a b : Nat) (ha : a < 256) (hb : b < 256) : a ^^^ b < 256 := by
  have h256 : (256 : Nat) = 2 ^ 8 := by norm_num
  rw [h256] at ha hb ⊢
  exact Nat.xor_lt_two_pow ha hb

/-- Helper: the forged block has block length. -/
theorem forgeBlock_length (prev x : List Nat) (bs i n : Nat)
    (hprev : prev.length = bs) (hx : x.length = bs) (hi : i < bs) :
    (forgeBlock prev x bs i n).length = bs := by
  unfold forgeBlock
  simp [hprev, hx]
  omega

/-- Helper: decrypting the last block against a forged penultimate block yields the true plaintext prefix, the probed byte, and a forced pad tail. -/
theorem forged_dec (T prev x : List Nat) (bs i n : Nat)
    (hT : T.length = bs) (hprev : prev.length = bs) (hx : x.length = bs) (hi : i < bs)
    (hxdrop : x.drop (i + 1) = T.drop (i + 1)) :
    lxor T (forgeBlock prev x bs i n)
      = (lxor T prev).take i
          ++ (T.getD i 0 ^^^ n) :: List.replicate (bs - 1 - i) (bs - i) := by
  have hiT : i < T.length := by omega
  have hsplit : T = T.take i ++ (T[i] :: T.drop (i + 1)) := by
    rw [← List.drop_eq_getElem_cons hiT]
    exact (T.take_append_drop i).symm
  have hTi : T[i] = T.getD i 0 := by
    rw [List.getD_eq_getElem?_getD, List.getElem?_eq_getElem hiT]
    rfl
  unfold forgeBlock lxor
  conv_lhs => rw [hsplit]
  rw [List.zipWith_append _ _ _ _ _ (by simp; omega)]
  rw [List.zipWith_cons_cons]
  rw [hxdrop, xor_absorb_list]
  rw [← List.take_zipWith]
  rw [hTi]
  have hlen2 : (T.drop (i + 1)).length = bs - 1 - i := by
    simp [hT]
    omega
  rw [hlen2]

/-- Helper: writing the penultimate block of `front ++ [a, b]`. -/
theorem set_penult (a b fb : List Nat) :
    ∀ front : List (List Nat), (front ++ [a, b]).set front.length fb = front ++ [fb, b] := by
  intro front
  induction front with
  | nil => rfl
  | cons x t ih =>
    simp only [List.cons_append, List.length_cons, List.set_cons_succ]
    rw [ih]

/-- Helper: the padding oracle on a joined forged block list tests `unpad` of the decrypted text. -/
theorem oracle_forged (D : List Nat → List Nat) (bs : Nat) (hbs : 0 < bs)
    (front : List (List Nat)) (fb cb : List Nat)
    (hfront : ∀ b ∈ front, b.length = bs) (hfb : fb.length = bs) (hcb : cb.length = bs) :
    padOracle D bs (joinBlocks (front ++ [fb, cb]))
      = match unpad (joinBlocks (cbcDecBlocks D (front ++ [fb])) ++ lxor (D cb) fb)
          schemePkcs7 with
        | Except.ok _ => true
        | Except.error _ => false := by
  unfold padOracle
  have hall : ∀ b ∈ front ++ [fb, cb], b.length = bs := by
    intro b hb
    rcases List.mem_append.mp hb with h1 | h1
    · exact hfront b h1
    · rcases List.mem_cons.mp h1 with h2 | h2
      · rw [h2]; exact hfb
      · rw [List.mem_singleton.mp h2]; exact hcb
  rw [blocksOf_join bs hbs _ hall, cbcDecBlocks_last]
  have hj : joinBlocks (cbcDecBlocks D (front ++ [fb]) ++ [lxor (D cb) fb])
      = joinBlocks (cbcDecBlocks D (front ++ [fb])) ++ lxor (D cb) fb := by
    simp [joinBlocks]
  rw [hj]

/-- Helper: reading near the end of an append lands in the right part. -/
theorem getD_append_last (A Q : List Nat) (k : Nat) (_h1 : 1 ≤ k) (hk : k ≤ Q.length) :
    (A ++ Q).getD ((A ++ Q).length - k) 0 = Q.getD (Q.length - k) 0 := by
  rw [List.getD_eq_getElem?_getD, List.getD_eq_getElem?_getD]
  have harith : (A ++ Q).length - k = A.length + (Q.length - k) := by
    simp
    omega
  rw [harith, List.getElem?_append_right (by omega)]
  have harith2 : A.length + (Q.length - k) - A.length = Q.length - k := by omega
  rw [harith2]

/-- Helper: the last element of an append with a non-empty right part. -/
theorem getLast?_append_of_eq (A Q : List Nat) (m : Nat) (h : Q.getLast? = some m) :
    (A ++ Q).getLast? = some m := by
  rw [List.getLast?_append, h]
  rfl

/-- Helper: dropping up to a written position exposes the written value. -/
theorem drop_set_self (l : List Nat) (i : Nat) (v : Nat) (h : i < l.length) :
    (l.set i v).drop i = v :: l.drop (i + 1) := by
  apply List.ext_getElem?
  intro j
  rw [List.getElem?_drop]
  cases j with
  | zero =>
    have h0 : i + 0 = i := by omega
    rw [h0, List.getElem?_set_self (by omega), List.getElem?_cons_zero]
  | succ k =>
    rw [List.getElem?_set_ne (by omega), List.getElem?_cons_succ, List.getElem?_drop]
    congr 1
    omega

/-- Helper: an in-range read of a byte list is a byte. -/
theorem getD_lt_of_forall (l : List Nat) (j : Nat) (hj : j < l.length)
    (hb : ∀ y ∈ l, y < 256) : l.getD j 0 < 256 := by
  apply hb
  rw [List.getD_eq_getElem?_getD, List.getElem?_eq_getElem hj]
  exact List.getElem_mem hj

/-- Helper: solving `a ^^^ b = c` for `b`. -/
theorem xor_extract (a b c : Nat) (h : a ^^^ b = c) : b = a ^^^ c := by
  rw [← h, ← Nat.xor_assoc, Nat.xor_self, Nat.zero_xor]

/-- Helper: XOR by `a` twice is the identity. -/
theorem xor_restore (a c : Nat) : a ^^^ (a ^^^ c) = c := by
  rw [← Nat.xor_assoc, Nat.xor_self, Nat.zero_xor]

/-- Helper: exposing the head of a drop via `getD`. -/
theorem drop_eq_getD_cons (l : List Nat) (i : Nat) (h : i < l.length) :
    l.drop i = l.getD i 0 :: l.drop (i + 1) := by
  rw [List.drop_eq_getElem_cons h]
  congr 1
  rw [List.getD_eq_getElem?_getD, List.getElem?_eq_getElem h]
  rfl

/-- Helper: one position of the inner loop recovers the corresponding byte of `D` of the last block: the oracle accepts exactly the candidate that forges a valid pad, a candidate equal to the original byte is skipped, and in that case the initial guess is already correct. -/
theorem stepPos_spec
    (D : List Nat → List Nat) (bs : Nat) (h2 : 2 ≤ bs) (h64 : bs ≤ 64)
    (front : List (List Nat)) (prev cb : List Nat)
    (hfront : ∀ b ∈ front, b.length = bs) (hprev : prev.length = bs) (hcb : cb.length = bs)
    (hD : ∀ c, c.length = bs → (D c).length = bs)
    (hTb : ∀ y ∈ D cb, y < 256)
    (hP2 : ∀ m, 2 ≤ m → m ≤ 64 → (lxor (D cb) prev).getD (bs - 2) 0 = m →
        (lxor (D cb) prev).getD (bs - 1) 0 = m)
    (oracle : List Nat → Bool) (horacle : ∀ c, oracle c = padOracle D bs c)
    (x : List Nat) (i : Nat) (hi : i < bs) (hx : x.length = bs)
    (hxdrop : x.drop (i + 1) = (D cb).drop (i + 1))
    (hxi : x.getD i 0 = (bs - i) ^^^ prev.getD i 0) :
    (stepPos oracle (front ++ [prev, cb]) prev bs x i).length = bs ∧
    (stepPos oracle (front ++ [prev, cb]) prev bs x i).drop i = (D cb).drop i ∧
    (∀ j, j < i → (stepPos oracle (front ++ [prev, cb]) prev bs x i).getD j 0
      = x.getD j 0) := by
  have hT : (D cb).length = bs := hD cb hcb
  have hPlen : (lxor (D cb) prev).length = bs := by
    unfold lxor
    rw [List.length_zipWith]
    omega
  have hTi256 : (D cb).getD i 0 < 256 := getD_lt_of_forall _ i (by omega) hTb
  have hsetlen : (front ++ [prev, cb]).length - 2 = front.length := by simp
  have horn : ∀ n, oracle (joinBlocks ((front ++ [prev, cb]).set
        ((front ++ [prev, cb]).length - 2) (forgeBlock prev x bs i n)))
      = match unpad (joinBlocks (cbcDecBlocks D (front ++ [forgeBlock prev x bs i n]))
            ++ ((lxor (D cb) prev).take i
              ++ ((D cb).getD i 0 ^^^ n) :: List.replicate (bs - 1 - i) (bs - i)))
          schemePkcs7 with
        | Except.ok _ => true
        | Except.error _ => false := by
    intro n
    rw [hsetlen, set_penult prev cb (forgeBlock prev x bs i n) front, horacle]
    rw [oracle_forged D bs (by omega) front _ cb hfront
      (forgeBlock_length prev x bs i n hprev hx hi) hcb]
    rw [forged_dec (D cb) prev x bs i n hT hprev hx hi hxdrop]
  have hq_of_acc : ∀ n, ¬ n = prev.getD i 0 →
      oracle (joinBlocks ((front ++ [prev, cb]).set ((front ++ [prev, cb]).length - 2)
        (forgeBlock prev x bs i n))) = true →
      (D cb).getD i 0 ^^^ n = bs - i := by
    intro n hskip hacc
    rw [horn n] at hacc
    by_contra hqne
    set A := joinBlocks (cbcDecBlocks D (front ++ [forgeBlock prev x bs i n])) with hA
    set q := (D cb).getD i 0 ^^^ n with hqdef
    by_cases hilast : i = bs - 1
    · have hrep0 : List.replicate (bs - 1 - i) (bs - i) = [] := by
        have h0 : bs - 1 - i = 0 := by omega
        rw [h0]
        rfl
      rw [hrep0] at hacc
      have hlastq : (A ++ ((lxor (D cb) prev).take i ++ [q])).getLast? = some q := by
        apply getLast?_append_of_eq
        apply getLast?_append_of_eq
        simp
      rcases Nat.lt_or_ge q 1 with hq0 | hq1
      · have hq0e : q = 0 := by omega
        rw [hq0e] at hlastq hacc
        rw [unpad_err_zero _ (by simp) hlastq] at hacc
        simp at hacc
      · rcases Nat.lt_or_ge q 2 with hq1e | hq2
        · exact hqne (by omega)
        · rcases Nat.lt_or_ge 64 q with hqbig | hqle
          · rw [unpad_err_big _ q hlastq hqbig] at hacc
            simp at hacc
          · have hsecond : (A ++ ((lxor (D cb) prev).take i ++ [q])).getD
                ((A ++ ((lxor (D cb) prev).take i ++ [q])).length - 2) 0
                = (lxor (D cb) prev).getD (bs - 2) 0 := by
              have hQlen : ((lxor (D cb) prev).take i ++ [q]).length = bs := by
                simp [hPlen]
                omega
              rw [getD_append_last _ _ 2 (by omega) (by rw [hQlen]; omega)]
              rw [hQlen]
              rw [List.getD_eq_getElem?_getD,
                List.getElem?_append_left (by simp [hPlen]; omega),
                List.getElem?_take_of_lt (by omega), ← List.getD_eq_getElem?_getD]
            by_cases hPm : (lxor (D cb) prev).getD (bs - 2) 0 = q
            · have hPl : (lxor (D cb) prev).getD (bs - 1) 0 = q := hP2 q hq2 hqle hPm
              have hPi : (lxor (D cb) prev).getD i 0
                  = (D cb).getD i 0 ^^^ prev.getD i 0 :=
                getD_lxor _ _ i (by omega) (by omega)
              apply hskip
              have hpq : (D cb).getD i 0 ^^^ prev.getD i 0 = q := by
                rw [← hPi, hilast]
                exact hPl
              have h5 : (D cb).getD i 0 ^^^ n = (D cb).getD i 0 ^^^ prev.getD i 0 := by
                rw [hpq, ← hqdef]
              have h6 := xor_extract _ _ _ h5
              rw [xor_restore] at h6
              exact h6
            · rw [unpad_err_second _ q hlastq hq2 (by simp [hPlen]; omega)
                (by rw [hsecond]; exact hPm)] at hacc
              simp at hacc
    · have hm2 : 2 ≤ bs - i := by omega
      rw [(by omega : bs - 1 - i = (bs - i) - 1)] at hacc
      rw [unpad_err_head A ((lxor (D cb) prev).take i) q (bs - i) hm2 hqne] at hacc
      simp at hacc
  have hacc_target : ∀ n, (D cb).getD i 0 ^^^ n = bs - i →
      oracle (joinBlocks ((front ++ [prev, cb]).set ((front ++ [prev, cb]).length - 2)
        (forgeBlock prev x bs i n))) = true := by
    intro n hq
    rw [horn n, hq]
    have hrep : (bs - i) :: List.replicate (bs - 1 - i) (bs - i)
        = List.replicate (bs - i) (bs - i) := by
      obtain ⟨k, hk⟩ : ∃ k, bs - i = k + 1 := ⟨bs - i - 1, by omega⟩
      have hk2 : bs - 1 - i = k := by omega
      rw [hk, hk2, List.replicate_succ]
    rw [hrep, unpad_ok_pad _ _ (bs - i) (by omega) (by omega)]
  set nstar := (D cb).getD i 0 ^^^ (bs - i) with hnstar
  have hpred : ∀ n, (decide (¬ n = prev.getD i 0) &&
      oracle (joinBlocks ((front ++ [prev, cb]).set ((front ++ [prev, cb]).length - 2)
        (forgeBlock prev x bs i n)))) = true
      ↔ (n = nstar ∧ ¬ nstar = prev.getD i 0) := by
    intro n
    constructor
    · intro h
      rw [Bool.and_eq_true] at h
      obtain ⟨hs, hacc⟩ := h
      have hs2 : ¬ n = prev.getD i 0 := of_decide_eq_true hs
      have hqn := hq_of_acc n hs2 hacc
      have hn : n = nstar := by
        rw [hnstar, ← hqn, xor_restore]
      exact ⟨hn, by rw [← hn]; exact hs2⟩
    · intro hpr
      obtain ⟨hn, hne⟩ := hpr
      rw [Bool.and_eq_true]
      constructor
      · rw [hn]
        exact decide_eq_true hne
      · apply hacc_target
        rw [hn, hnstar, xor_restore]
  unfold stepPos tryByte
  by_cases hskipc : nstar = prev.getD i 0
  · have hnone : (List.range 256).find? (fun n => decide (¬ n = prev.getD i 0) &&
        oracle (joinBlocks ((front ++ [prev, cb]).set ((front ++ [prev, cb]).length - 2)
          (forgeBlock prev x bs i n)))) = none := by
      apply find?_of_never
      intro b _
      by_contra hcon
      have hvb := eq_true_of_ne_false hcon
      exact absurd hskipc ((hpred b).mp hvb).2
    rw [hnone]
    refine ⟨hx, ?_, fun j hj => rfl⟩
    have hxv : x.getD i 0 = (D cb).getD i 0 := by
      rw [hxi, ← hskipc, hnstar, Nat.xor_comm ((D cb).getD i 0) (bs - i), xor_restore]
    rw [drop_eq_getD_cons x i (by omega), drop_eq_getD_cons (D cb) i (by omega), hxv,
      hxdrop]
  · have hsome : (List.range 256).find? (fun n => decide (¬ n = prev.getD i 0) &&
        oracle (joinBlocks ((front ++ [prev, cb]).set ((front ++ [prev, cb]).length - 2)
          (forgeBlock prev x bs i n)))) = some nstar := by
      apply find?_of_unique
      · rw [List.mem_range, hnstar]
        exact xor_lt_256 _ _ hTi256 (by omega)
      · exact (hpred nstar).mpr ⟨rfl, hskipc⟩
      · intro b hbne
        by_contra hcon
        have hvb := eq_true_of_ne_false hcon
        exact absurd ((hpred b).mp hvb).1 hbne
    rw [hsome]
    have hval : (bs - i) ^^^ nstar = (D cb).getD i 0 := by
      rw [hnstar, Nat.xor_comm ((D cb).getD i 0) (bs - i), xor_restore]
    refine ⟨by simp [hx], ?_, ?_⟩
    · rw [drop_set_self x i _ (by omega), hval, hxdrop,
        ← drop_eq_getD_cons (D cb) i (by omega)]
    · intro j hj
      rw [List.getD_eq_getElem?_getD, List.getD_eq_getElem?_getD,
        List.getElem?_set_ne (by omega)]

/-- Helper: the full inner loop recovers `D` of the last block. -/
theorem posLoop_spec
    (D : List Nat → List Nat) (bs : Nat) (h2 : 2 ≤ bs) (h64 : bs ≤ 64)
    (front : List (List Nat)) (prev cb : List Nat)
    (hfront : ∀ b ∈ front, b.length = bs) (hprev : prev.length = bs) (hcb : cb.length = bs)
    (hD : ∀ c, c.length = bs → (D c).length = bs)
    (hTb : ∀ y ∈ D cb, y < 256)
    (hP2 : ∀ m, 2 ≤ m → m ≤ 64 → (lxor (D cb) prev).getD (bs - 2) 0 = m →
        (lxor (D cb) prev).getD (bs - 1) 0 = m)
    (oracle : List Nat → Bool) (horacle : ∀ c, oracle c = padOracle D bs c) :
    ∀ i x, i ≤ bs → x.length = bs → x.drop i = (D cb).drop i →
      (∀ j, j < i → x.getD j 0 = (bs - j) ^^^ prev.getD j 0) →
      posLoop oracle (front ++ [prev, cb]) prev bs i x = D cb := by
  intro i
  induction i with
  | zero =>
    intro x _ _ hdrop _
    show x = D cb
    simpa using hdrop
  | succ i ih =>
    intro x hile hxlen hdrop hlow
    show posLoop oracle (front ++ [prev, cb]) prev bs i
      (stepPos oracle (front ++ [prev, cb]) prev bs x i) = D cb
    obtain ⟨hlen2, hdrop2, hlow2⟩ := stepPos_spec D bs h2 h64 front prev cb hfront hprev hcb
      hD hTb hP2 oracle horacle x i (by omega) hxlen hdrop (hlow i (by omega))
    refine ih _ (by omega) hlen2 hdrop2 ?_
    intro j hj
    rw [hlow2 j hj]
    exact hlow j (by omega)

/-- Helper: one round of the attack recovers the plaintext of the last block, `D(C_last) XOR C_penult`. -/
theorem round_spec
    (D : List Nat → List Nat) (bs : Nat) (h2 : 2 ≤ bs) (h64 : bs ≤ 64)
    (front : List (List Nat)) (prev cb : List Nat)
    (hfront : ∀ b ∈ front, b.length = bs) (hprev : prev.length = bs) (hcb : cb.length = bs)
    (hD : ∀ c, c.length = bs → (D c).length = bs)
    (hTb : ∀ y ∈ D cb, y < 256)
    (hP2 : ∀ m, 2 ≤ m → m ≤ 64 → (lxor (D cb) prev).getD (bs - 2) 0 = m →
        (lxor (D cb) prev).getD (bs - 1) 0 = m)
    (oracle : List Nat → Bool) (horacle : ∀ c, oracle c = padOracle D bs c) :
    decrypt_cbc_last_blk_padding_attack (front ++ [prev, cb]) bs oracle
      = lxor (D cb) prev := by
  have hT : (D cb).length = bs := hD cb hcb
  have hgetprev : (front ++ [prev, cb]).getD ((front ++ [prev, cb]).length - 2) [] = prev := by
    have hl : (front ++ [prev, cb]).length - 2 = front.length := by simp
    rw [hl, List.getD_eq_getElem?_getD]
    have hg : (front ++ [prev, cb])[front.length]? = some prev := by
      rw [List.getElem?_append_right (le_refl _)]
      simp
    rw [hg]
    rfl
  simp only [decrypt_cbc_last_blk_padding_attack]
  rw [hgetprev]
  have hx0len : (lxor ((List.range bs).map (fun i => bs - i)) prev).length = bs := by
    unfold lxor
    rw [List.length_zipWith]
    simp [hprev]
  have hx0get : ∀ j, j < bs →
      (lxor ((List.range bs).map (fun i => bs - i)) prev).getD j 0
        = (bs - j) ^^^ prev.getD j 0 := by
    intro j hj
    rw [getD_lxor _ _ j (by simp; omega) (by omega)]
    congr 1
    rw [List.getD_eq_getElem?_getD, List.getElem?_map, List.getElem?_range hj]
    rfl
  have hx0drop : (lxor ((List.range bs).map (fun i => bs - i)) prev).drop bs
      = (D cb).drop bs := by
    rw [List.drop_eq_nil_of_le (by omega), List.drop_eq_nil_of_le (by omega)]
  rw [posLoop_spec D bs h2 h64 front prev cb hfront hprev hcb hD hTb hP2 oracle horacle
    bs _ (le_refl bs) hx0len hx0drop (fun j hj => hx0get j hj)]
/-- Helper: length of a pointwise XOR. -/
theorem lxor_length (a b : List Nat) : (lxor a b).length = min a.length b.length := by
  unfold lxor
  rw [List.length_zipWith]

/-- Helper: a pointwise XOR of byte lists is a byte list. -/
theorem lxor_bytes : ∀ a b : List Nat, (∀ y ∈ a, y < 256) → (∀ y ∈ b, y < 256) →
    ∀ y ∈ lxor a b, y < 256 := by
  intro a
  induction a with
  | nil => intro b _ _ y hy; simp [lxor] at hy
  | cons u t ih =>
    intro b ha hb y hy
    cases b with
    | nil => simp [lxor] at hy
    | cons v s =>
      unfold lxor at hy
      rw [List.zipWith_cons_cons] at hy
      rcases List.mem_cons.mp hy with h1 | h1
      · rw [h1]
        exact xor_lt_256 u v (ha u (by simp)) (hb v (by simp))
      · exact ih s (fun z hz => ha z (by simp [hz])) (fun z hz => hb z (by simp [hz])) y h1

/-- Helper: `getLastD` is the default or a member. -/
theorem getLastD_mem_or : ∀ (l : List (List Nat)) (d : List Nat),
    l.getLastD d = d ∨ l.getLastD d ∈ l := by
  intro l
  induction l with
  | nil => intro d; left; rfl
  | cons a t ih =>
    intro d
    rw [List.getLastD_cons]
    rcases ih a with h1 | h1
    · right; rw [h1]; simp
    · right; exact List.mem_cons_of_mem a h1

/-- Helper: a non-empty list splits off its last element. -/
theorem cons_getLastD_decomp : ∀ (t : List (List Nat)) (a : List Nat),
    ∃ front, a :: t = front ++ [t.getLastD a] := by
  intro t
  induction t with
  | nil => intro a; exact ⟨[], rfl⟩
  | cons b t2 ih =>
    intro a
    obtain ⟨fr, hfr⟩ := ih b
    refine ⟨a :: fr, ?_⟩
    rw [List.getLastD_cons]
    rw [List.cons_append, ← hfr]

/-- Helper: CBC encryption preserves the block count. -/
theorem cbcEncBlocks_length (E : List Nat → List Nat) :
    ∀ (l : List (List Nat)) (prev : List Nat), (cbcEncBlocks E prev l).length = l.length := by
  intro l
  induction l with
  | nil => intro prev; rfl
  | cons q t ih =>
    intro prev
    simp only [cbcEncBlocks, List.length_cons]
    rw [ih]

/-- Helper: CBC encryption of one more block appends one ciphertext block chained to the previous one. -/
theorem cbcEncBlocks_append_singleton (E : List Nat → List Nat) :
    ∀ (l : List (List Nat)) (prev p : List Nat),
      cbcEncBlocks E prev (l ++ [p])
        = cbcEncBlocks E prev l
          ++ [E (lxor p ((cbcEncBlocks E prev l).getLastD prev))] := by
  intro l
  induction l with
  | nil => intro prev p; rfl
  | cons q t ih =>
    intro prev p
    simp only [List.cons_append, cbcEncBlocks, List.getLastD_cons, List.append_eq]
    rw [ih]

/-- Helper: CBC encryption of byte blocks yields byte blocks of block length. -/
theorem cbcEncBlocks_props (E : List Nat → List Nat) (bs : Nat)
    (hElen : ∀ b, b.length = bs → (E b).length = bs)
    (hEb : ∀ b, b.length = bs → (∀ y ∈ b, y < 256) → ∀ y ∈ E b, y < 256) :
    ∀ (l : List (List Nat)) (prev : List Nat),
      (∀ p ∈ l, p.length = bs ∧ ∀ y ∈ p, y < 256) →
      prev.length = bs → (∀ y ∈ prev, y < 256) →
      ∀ c ∈ cbcEncBlocks E prev l, c.length = bs ∧ ∀ y ∈ c, y < 256 := by
  intro l
  induction l with
  | nil => intro prev _ _ _ c hc; simp [cbcEncBlocks] at hc
  | cons q t ih =>
    intro prev hl hprev hprevb c hc
    have hq := hl q (by simp)
    have hxlen : (lxor q prev).length = bs := by
      rw [lxor_length, hq.1, hprev]
      simp
    have hxb : ∀ y ∈ lxor q prev, y < 256 := lxor_bytes q prev hq.2 hprevb
    have hcn : (E (lxor q prev)).length = bs := hElen _ hxlen
    have hcb : ∀ y ∈ E (lxor q prev), y < 256 := hEb _ hxlen hxb
    simp only [cbcEncBlocks] at hc
    rcases List.mem_cons.mp hc with h1 | h1
    · rw [h1]
      exact ⟨hcn, hcb⟩
    · exact ih (E (lxor q prev)) (fun p hp => hl p (by simp [hp])) hcn hcb c h1
/-- Helper: the outer `while` loop recovers all plaintext blocks, last first. -/
theorem attackRounds_spec
    (E D : List Nat → List Nat) (bs : Nat) (h2 : 2 ≤ bs) (h64 : bs ≤ 64)
    (hElen : ∀ b, b.length = bs → (E b).length = bs)
    (hEb : ∀ b, b.length = bs → (∀ y ∈ b, y < 256) → ∀ y ∈ E b, y < 256)
    (hD : ∀ c, c.length = bs → (D c).length = bs)
    (hDE : ∀ b, b.length = bs → D (E b) = b)
    (oracle : List Nat → Bool) (horacle : ∀ c, oracle c = padOracle D bs c) :
    ∀ Ps : List (List Nat),
      (∀ p ∈ Ps, p.length = bs ∧ (∀ y ∈ p, y < 256) ∧
        (∀ m, 2 ≤ m → m ≤ 64 → p.getD (bs - 2) 0 = m → p.getD (bs - 1) 0 = m)) →
      ∀ prevC : List Nat, prevC.length = bs → (∀ y ∈ prevC, y < 256) →
      attackRounds bs oracle (Ps.length + 1) (prevC :: cbcEncBlocks E prevC Ps)
        = (Ps.reverse) := by
  intro Ps
  induction Ps using List.reverseRecOn with
  | nil =>
    intro _ prevC _ _
    show attackRounds bs oracle 1 [prevC] = []
    rw [attackRounds, if_pos (by simp)]
  | append_singleton Ps' Plast ih =>
    intro hP prevC hprevC hprevCb
    have hPlast := hP Plast (by simp)
    have hP' : ∀ p ∈ Ps', p.length = bs ∧ (∀ y ∈ p, y < 256) ∧
        (∀ m, 2 ≤ m → m ≤ 64 → p.getD (bs - 2) 0 = m → p.getD (bs - 1) 0 = m) :=
      fun p hp => hP p (by simp [hp])
    have hchainprops := cbcEncBlocks_props E bs hElen hEb Ps' prevC
      (fun p hp => ⟨(hP' p hp).1, (hP' p hp).2.1⟩) hprevC hprevCb
    have hclprops : ((cbcEncBlocks E prevC Ps').getLastD prevC).length = bs ∧
        ∀ y ∈ (cbcEncBlocks E prevC Ps').getLastD prevC, y < 256 := by
      rcases getLastD_mem_or (cbcEncBlocks E prevC Ps') prevC with h1 | h1
      · rw [h1]
        exact ⟨hprevC, hprevCb⟩
      · exact hchainprops _ h1
    have hxlat : (lxor Plast ((cbcEncBlocks E prevC Ps').getLastD prevC)).length = bs := by
      rw [lxor_length, hPlast.1, hclprops.1]
      simp
    have hclast : (E (lxor Plast ((cbcEncBlocks E prevC Ps').getLastD prevC))).length = bs :=
      hElen _ hxlat
    have hDclast : D (E (lxor Plast ((cbcEncBlocks E prevC Ps').getLastD prevC)))
        = lxor Plast ((cbcEncBlocks E prevC Ps').getLastD prevC) := hDE _ hxlat
    obtain ⟨front, hfr⟩ := cons_getLastD_decomp (cbcEncBlocks E prevC Ps') prevC
    have hfrontlen : ∀ b ∈ front, b.length = bs := by
      intro b hb
      have hmem : b ∈ prevC :: cbcEncBlocks E prevC Ps' := by
        rw [hfr]
        exact List.mem_append.mpr (Or.inl hb)
      rcases List.mem_cons.mp hmem with h1 | h1
      · rw [h1]; exact hprevC
      · exact (hchainprops b h1).1
    have hchain : cbcEncBlocks E prevC (Ps' ++ [Plast])
        = cbcEncBlocks E prevC Ps'
          ++ [E (lxor Plast ((cbcEncBlocks E prevC Ps').getLastD prevC))] :=
      cbcEncBlocks_append_singleton E Ps' prevC Plast
    have hfuel : (Ps' ++ [Plast]).length + 1 = Ps'.length + 1 + 1 := by simp
    rw [hchain, hfuel, attackRounds]
    rw [if_neg (by simp)]
    have hshape : prevC :: (cbcEncBlocks E prevC Ps'
          ++ [E (lxor Plast ((cbcEncBlocks E prevC Ps').getLastD prevC))])
        = front ++ [(cbcEncBlocks E prevC Ps').getLastD prevC,
            E (lxor Plast ((cbcEncBlocks E prevC Ps').getLastD prevC))] := by
      rw [← List.cons_append, hfr]
      rw [List.append_assoc]
      rfl
    rw [hshape]
    have hP2round : ∀ m, 2 ≤ m → m ≤ 64 →
        (lxor (D (E (lxor Plast ((cbcEncBlocks E prevC Ps').getLastD prevC))))
          ((cbcEncBlocks E prevC Ps').getLastD prevC)).getD (bs - 2) 0 = m →
        (lxor (D (E (lxor Plast ((cbcEncBlocks E prevC Ps').getLastD prevC))))
          ((cbcEncBlocks E prevC Ps').getLastD prevC)).getD (bs - 1) 0 = m := by
      rw [hDclast]
      have hcancel : lxor (lxor Plast ((cbcEncBlocks E prevC Ps').getLastD prevC))
          ((cbcEncBlocks E prevC Ps').getLastD prevC) = Plast := by
        apply zipWith_xor_cancel
        rw [hPlast.1, hclprops.1]
      rw [hcancel]
      exact hPlast.2.2
    have hTbround : ∀ y ∈ D (E (lxor Plast ((cbcEncBlocks E prevC Ps').getLastD prevC))),
        y < 256 := by
      rw [hDclast]
      exact lxor_bytes _ _ hPlast.2.1 hclprops.2
    rw [round_spec D bs h2 h64 front _ _ hfrontlen hclprops.1 hclast hD hTbround hP2round
      oracle horacle]
    have hres : lxor (D (E (lxor Plast ((cbcEncBlocks E prevC Ps').getLastD prevC))))
        ((cbcEncBlocks E prevC Ps').getLastD prevC) = Plast := by
      rw [hDclast]
      apply zipWith_xor_cancel
      rw [hPlast.1, hclprops.1]
    rw [hres]
    have hdrop2 : (front ++ [(cbcEncBlocks E prevC Ps').getLastD prevC,
          E (lxor Plast ((cbcEncBlocks E prevC Ps').getLastD prevC))]).dropLast
        = prevC :: cbcEncBlocks E prevC Ps' := by
      rw [show front ++ [(cbcEncBlocks E prevC Ps').getLastD prevC,
            E (lxor Plast ((cbcEncBlocks E prevC Ps').getLastD prevC))]
          = (front ++ [(cbcEncBlocks E prevC Ps').getLastD prevC])
            ++ [E (lxor Plast ((cbcEncBlocks E prevC Ps').getLastD prevC))] from by simp]
      rw [List.dropLast_concat, ← hfr]
    rw [hdrop2, ih hP' prevC hprevC hprevCb]
    simp
/-- Helper: the blocks of a pkcs#7 padded plaintext whose bytes avoid `[2, 64]` have block length, byte values, and the pad-run property the attack needs. -/
theorem padded_block_props (bs : Nat) (h2 : 2 ≤ bs) (h64 : bs ≤ 64)
    (ptxt : List Nat) (hpt : ∀ y ∈ ptxt, y < 256 ∧ ¬ (2 ≤ y ∧ y ≤ 64)) :
    ∀ p ∈ blocksOf bs (ptxt ++ List.replicate (bs - ptxt.length % bs) (bs - ptxt.length % bs)),
      p.length = bs ∧ (∀ y ∈ p, y < 256) ∧
      (∀ m, 2 ≤ m → m ≤ 64 → p.getD (bs - 2) 0 = m → p.getD (bs - 1) 0 = m) := by
  intro p hp
  have hbs0 : 0 < bs := by omega
  have hmod : ptxt.length % bs < bs := Nat.mod_lt _ hbs0
  have hk1 : 1 ≤ bs - ptxt.length % bs := by omega
  have hlenpad : (ptxt ++ List.replicate (bs - ptxt.length % bs)
      (bs - ptxt.length % bs)).length = (ptxt.length / bs + 1) * bs := by
    have hdm := Nat.div_add_mod ptxt.length bs
    have hr1 : (ptxt.length / bs + 1) * bs = ptxt.length / bs * bs + bs := by ring
    have hr2 : bs * (ptxt.length / bs) = ptxt.length / bs * bs := by ring
    simp
    omega
  have hplen : p.length = bs :=
    blocksOf_length_eq bs hbs0 (ptxt.length / bs + 1) _ hlenpad p hp
  have hmemp : ∀ y ∈ p, y ∈ ptxt ++ List.replicate (bs - ptxt.length % bs)
      (bs - ptxt.length % bs) := by
    intro y hy
    obtain ⟨off, hoff⟩ := blocksOf_offset bs hbs0 _ _ p (le_refl _) hp
    rw [hoff] at hy
    exact List.mem_of_mem_drop (List.mem_of_mem_take hy)
  refine ⟨hplen, ?_, ?_⟩
  · intro y hy
    rcases List.mem_append.mp (hmemp y hy) with h1 | h1
    · exact (hpt y h1).1
    · rw [List.eq_of_mem_replicate h1]
      omega
  · intro m hm2 hm64 hpm
    obtain ⟨off, hoff⟩ := blocksOf_offset bs hbs0 _ _ p (le_refl _) hp
    have hofflen : off + bs ≤ (ptxt ++ List.replicate (bs - ptxt.length % bs)
        (bs - ptxt.length % bs)).length := by
      have hminlen : p.length = min bs ((ptxt ++ List.replicate (bs - ptxt.length % bs)
          (bs - ptxt.length % bs)).length - off) := by
        rw [hoff]
        simp
      omega
    have hgetp : ∀ t, t < bs → p.getD t 0
        = (ptxt ++ List.replicate (bs - ptxt.length % bs)
            (bs - ptxt.length % bs)).getD (off + t) 0 := by
      intro t ht
      rw [hoff, getD_take_lt _ _ _ ht, List.getD_eq_getElem?_getD, List.getElem?_drop,
        ← List.getD_eq_getElem?_getD]
    have hpadval : ∀ pos, ptxt.length ≤ pos →
        pos < (ptxt ++ List.replicate (bs - ptxt.length % bs)
          (bs - ptxt.length % bs)).length →
        (ptxt ++ List.replicate (bs - ptxt.length % bs)
          (bs - ptxt.length % bs)).getD pos 0 = bs - ptxt.length % bs := by
      intro pos hp1 hp2'
      rw [List.getD_eq_getElem?_getD,
        (by omega : pos = ptxt.length + (pos - ptxt.length)),
        List.getElem?_append_right (by omega)]
      have harith : ptxt.length + (pos - ptxt.length) - ptxt.length = pos - ptxt.length := by
        omega
      rw [harith]
      have hlt : pos - ptxt.length < bs - ptxt.length % bs := by
        simp at hp2'
        omega
      rw [(by simp [List.getElem?_replicate, hlt] :
        (List.replicate (bs - ptxt.length % bs) (bs - ptxt.length % bs))[pos - ptxt.length]?
          = some (bs - ptxt.length % bs))]
      rfl
    have hpos : ptxt.length ≤ off + (bs - 2) := by
      by_contra hcon
      push_neg at hcon
      have hmem2 : (ptxt ++ List.replicate (bs - ptxt.length % bs)
          (bs - ptxt.length % bs)).getD (off + (bs - 2)) 0 ∈ ptxt := by
        rw [List.getD_eq_getElem?_getD, List.getElem?_append_left hcon,
          List.getElem?_eq_getElem (by omega), Option.getD_some]
        exact List.getElem_mem _
      have hval := (hpt _ hmem2).2
      rw [← hgetp (bs - 2) (by omega), hpm] at hval
      exact hval ⟨hm2, hm64⟩
    have hm_eq : m = bs - ptxt.length % bs := by
      rw [← hpm, hgetp (bs - 2) (by omega)]
      exact hpadval _ hpos (by omega)
    rw [hgetp (bs - 1) (by omega), hpadval _ (by omega) (by omega), hm_eq]

/-- Helper: the full attack on a CBC encryption of a padded plaintext returns the padded plaintext. -/
theorem cbc_padding_attack_returns_padded
    (E D : List Nat → List Nat) (bs : Nat) (ptxt iv : List Nat)
    (oracle : List Nat → Bool)
    (h2 : 2 ≤ bs) (h64 : bs ≤ 64)
    (hElen : ∀ b, b.length = bs → (E b).length = bs)
    (hEb : ∀ b, b.length = bs → (∀ y ∈ b, y < 256) → ∀ y ∈ E b, y < 256)
    (hD : ∀ c, c.length = bs → (D c).length = bs)
    (hDE : ∀ b, b.length = bs → D (E b) = b)
    (hiv : iv.length = bs) (hivb : ∀ y ∈ iv, y < 256)
    (hpt : ∀ y ∈ ptxt, y < 256 ∧ ¬ (2 ≤ y ∧ y ≤ 64))
    (horacle : ∀ c, oracle c = padOracle D bs c) :
    decrypt_cbc_padding_attack
        (cbcEnc E iv (ptxt ++ List.replicate (bs - ptxt.length % bs)
          (bs - ptxt.length % bs)) bs)
        bs oracle (some iv)
      = ptxt ++ List.replicate (bs - ptxt.length % bs) (bs - ptxt.length % bs) := by
  have hbs0 : 0 < bs := by omega
  have hprops := padded_block_props bs h2 h64 ptxt hpt
  have hchainprops := cbcEncBlocks_props E bs hElen hEb
    (blocksOf bs (ptxt ++ List.replicate (bs - ptxt.length % bs) (bs - ptxt.length % bs)))
    iv (fun p hp => ⟨(hprops p hp).1, (hprops p hp).2.1⟩) hiv hivb
  have hct : iv ++ cbcEnc E iv (ptxt ++ List.replicate (bs - ptxt.length % bs)
        (bs - ptxt.length % bs)) bs
      = joinBlocks (iv :: cbcEncBlocks E iv
          (blocksOf bs (ptxt ++ List.replicate (bs - ptxt.length % bs)
            (bs - ptxt.length % bs)))) := by
    unfold cbcEnc
    simp [joinBlocks]
  have hcbk : blocksOf bs (iv ++ cbcEnc E iv (ptxt ++ List.replicate
        (bs - ptxt.length % bs) (bs - ptxt.length % bs)) bs)
      = iv :: cbcEncBlocks E iv (blocksOf bs (ptxt ++ List.replicate
          (bs - ptxt.length % bs) (bs - ptxt.length % bs))) := by
    rw [hct]
    apply blocksOf_join bs hbs0
    intro b hb
    rcases List.mem_cons.mp hb with h1 | h1
    · rw [h1]; exact hiv
    · exact (hchainprops b h1).1
  simp only [decrypt_cbc_padding_attack]
  rw [hcbk]
  have hlen2 : (iv :: cbcEncBlocks E iv (blocksOf bs (ptxt ++ List.replicate
      (bs - ptxt.length % bs) (bs - ptxt.length % bs)))).length
      = (blocksOf bs (ptxt ++ List.replicate (bs - ptxt.length % bs)
          (bs - ptxt.length % bs))).length + 1 := by
    simp [cbcEncBlocks_length]
  rw [hlen2]
  rw [attackRounds_spec E D bs h2 h64 hElen hEb hD hDE oracle horacle _ hprops iv hiv hivb]
  rw [List.reverse_reverse]
  have hlenpad : (ptxt ++ List.replicate (bs - ptxt.length % bs)
      (bs - ptxt.length % bs)).length = (ptxt.length / bs + 1) * bs := by
    have hdm := Nat.div_add_mod ptxt.length bs
    have hmod : ptxt.length % bs < bs := Nat.mod_lt _ hbs0
    have hr1 : (ptxt.length / bs + 1) * bs = ptxt.length / bs * bs + bs := by ring
    have hr2 : bs * (ptxt.length / bs) = ptxt.length / bs * bs := by ring
    simp
    omega
  exact join_blocksOf bs hbs0 _ _ (le_refl _)
/-- C1 (amended): for every block cipher `E` with inverse `D` that maps
`bs`-byte blocks to `bs`-byte blocks (`2 ≤ bs ≤ 64`), every `bs`-byte IV,
and every plaintext whose bytes are valid bytes outside `[2, 64]`, if the
ciphertext is the CBC encryption of the pkcs#7-padded plaintext and the
oracle reports whether a submitted IV-prefixed ciphertext decrypts and
unpads successfully, then `decrypt_cbc_padding_attack` returns the
*padded* plaintext - the pad bytes included, since the code never unpads
its result - and unpadding that result recovers the original plaintext.
(The byte restriction is needed: a plaintext byte in `[2, 64]` can make
the forged pad check accept a wrong candidate byte; see the
counterexample for the unpadded-result divergence.) -/
theorem decrypt_cbc_padding_attack_correct
    (E D : List Nat → List Nat) (bs : Nat) (ptxt iv : List Nat)
    (oracle : List Nat → Bool)
    (h2 : 2 ≤ bs) (h64 : bs ≤ 64)
    (hElen : ∀ b, b.length = bs → (E b).length = bs)
    (hEb : ∀ b, b.length = bs → (∀ y ∈ b, y < 256) → ∀ y ∈ E b, y < 256)
    (hD : ∀ c, c.length = bs → (D c).length = bs)
    (hDE : ∀ b, b.length = bs → D (E b) = b)
    (hiv : iv.length = bs) (hivb : ∀ y ∈ iv, y < 256)
    (hpt : ∀ y ∈ ptxt, y < 256 ∧ ¬ (2 ≤ y ∧ y ≤ 64))
    (horacle : ∀ c, oracle c = padOracle D bs c) :
    pad ptxt bs schemePkcs7
      = Except.ok (ptxt ++ List.replicate (bs - ptxt.length % bs)
          (bs - ptxt.length % bs)) ∧
    decrypt_cbc_padding_attack
        (cbcEnc E iv (ptxt ++ List.replicate (bs - ptxt.length % bs)
          (bs - ptxt.length % bs)) bs)
        bs oracle (some iv)
      = ptxt ++ List.replicate (bs - ptxt.length % bs) (bs - ptxt.length % bs) ∧
    unpad (ptxt ++ List.replicate (bs - ptxt.length % bs) (bs - ptxt.length % bs))
        schemePkcs7
      = Except.ok ptxt := by
  obtain ⟨hpad, hunpad⟩ := pkcs7_roundtrip ptxt bs (by omega) h64
  exact ⟨hpad,
    cbc_padding_attack_returns_padded E D bs ptxt iv oracle h2 h64 hElen hEb hD hDE
      hiv hivb hpt horacle,
    hunpad⟩

/-- Witness for `decrypt_cbc_padding_attack_correct` with the identity
block cipher, `bs = 2`, IV `[3, 7]` and plaintext `[65, 66]`: the attack
returns the padded plaintext `[65, 66, 2, 2]`. -/
theorem decrypt_cbc_padding_attack_correct_witness :
    pad [65, 66] 2 schemePkcs7 = Except.ok [65, 66, 2, 2] ∧
    decrypt_cbc_padding_attack (cbcEnc (fun b => b) [3, 7] [65, 66, 2, 2] 2) 2
      (fun c => padOracle (fun b => b) 2 c) (some [3, 7]) = [65, 66, 2, 2] ∧
    unpad [65, 66, 2, 2] schemePkcs7 = Except.ok [65, 66] :=
  decrypt_cbc_padding_attack_correct (fun b => b) (fun b => b) 2 [65, 66] [3, 7]
    (fun c => padOracle (fun b => b) 2 c) (by omega) (by omega)
    (fun b hb => hb) (fun b _ hb => hb) (fun c hc => hc) (fun b _ => rfl)
    (by decide) (by decide) (by decide) (fun c => rfl)

/-- C1 counterexample: the claim promises the original *unpadded*
plaintext, but the attack returns the padded one.  With the byte-wise
XOR cipher `E = D = map (· ^^^ 90)`, `bs = 2`, IV `[3, 7]` and plaintext
`[65, 66]` (padded `[65, 66, 2, 2]`), the attack returns
`[65, 66, 2, 2]`, not `[65, 66]`. -/
theorem cbc_attack_unpadded_counterexample :
    decrypt_cbc_padding_attack
        (cbcEnc (fun b => b.map (fun y => y ^^^ 90)) [3, 7] [65, 66, 2, 2] 2) 2
      (fun c => padOracle (fun b => b.map (fun y => y ^^^ 90)) 2 c) (some [3, 7])
      ≠ [65, 66] := by
  decide

set_option maxRecDepth 100000 in
set_option maxHeartbeats 8000000 in
/-- C2 counterexample: the claim promises that after *at least* 624
supplied outputs the clone continues the stream after the supplied ones;
but `clone_mt19937` rebuilds the state from the first 624 outputs only,
so when 625 outputs of the seed-0 generator are supplied, the clone's
next output is the original's 625th output again, not its 626th. -/
theorem clone_extra_outputs_counterexample :
    (clone_mt19937 (extractN (mtInit 0) 625).1).map (fun c => (extractOne c).1)
      ≠ Except.ok ((extractOne (extractN (mtInit 0) 625).2).1) := by
  decide

end Cryptonita
